import Mathlib

/-!
Verification development for the JSPiano core: the key/scale pitch mapper
(`src/core/MusicLogic.js`), the bidirectional notation translator
(`src/core/NoteTranslator.js`), the autoplay lookahead scheduler
(`src/unnamed/part_000`, class `AutoPlayer`) and the audio engine
(`src/unnamed/part_001`, class `AudioEngine`).

Conventions of the shallow embedding:
* JS strings are `List Char`; JS numbers holding pitches/indices are `Int`/`Nat`;
  JS numbers holding times and tempo factors are `ℚ` (the source only ever
  combines them by `+`, `*`, `/`, so exact rational arithmetic mirrors the
  intended real-number behaviour of the spec).
* `undefined`/`null` results are `Option.none`.
* Mutable objects (`AutoPlayer`, `AudioEngine`) become explicit state records;
  calls into external sinks (`audio.play`, `onVisualEvent`, `onStop`) are
  modelled as append-only logs inside the state.
* Brace characters are written with `\x7b` / `\x7d` escapes, quote characters
  with `Char.ofNat`.
-/

/-! ## MusicLogic (src/core/MusicLogic.js) -/

/-- `this.keyMap = "1234567890qwertyuiopasdfghjklzxcvbnm".split("")`. -/
def keyMap : List Char := "1234567890qwertyuiopasdfghjklzxcvbnm".toList

/-- `this.shiftMap` of `MusicLogic`: shifted digit symbols to their base digits. -/
def shiftMapPairs : List (Char × Char) :=
  [('!', '1'), ('@', '2'), ('#', '3'), ('$', '4'), ('%', '5'),
   ('^', '6'), ('&', '7'), ('*', '8'), ('(', '9'), (')', '0')]

/-- Lookup `this.shiftMap[c]` (the base digit for a shifted symbol). -/
def shiftMapBase (c : Char) : Option Char :=
  (shiftMapPairs.find? (fun p => p.1 == c)).map (fun p => p.2)

/-- Reverse lookup used by `findKeyForMidi`:
`Object.keys(this.logic.shiftMap).find((k) => this.logic.shiftMap[k] === char)`. -/
def shiftKeyFor (c : Char) : Option Char :=
  (shiftMapPairs.find? (fun p => p.2 == c)).map (fun p => p.1)

/-- `this.whiteNames = ["C", "D", "E", "F", "G", "A", "B"]`. -/
def whiteNames : List String := ["C", "D", "E", "F", "G", "A", "B"]

/-- `this.whiteOffsets = { C: 0, D: 2, E: 4, F: 5, G: 7, A: 9, B: 11 }`. -/
def whiteOffset (name : String) : Nat :=
  if name = "C" then 0 else if name = "D" then 2 else if name = "E" then 4
  else if name = "F" then 5 else if name = "G" then 7 else if name = "A" then 9
  else if name = "B" then 11 else 0

/-- One entry of `this.scales`: the altered natural note names and the
sharps/flats direction flag. -/
structure ScaleDef where
  notes : List String
  sharps : Bool
deriving DecidableEq

/-- `this.scales` of `MusicLogic`. -/
def scalesList : List (String × ScaleDef) :=
  [("C Major", ⟨[], true⟩),
   ("C# Major", ⟨["C", "D", "E", "F", "G", "A", "B"], true⟩),
   ("D Major", ⟨["F", "C"], true⟩),
   ("D♭ Major", ⟨["D", "E", "G", "A", "B"], false⟩),
   ("E Major", ⟨["F", "G", "C", "D"], true⟩),
   ("E♭ Major", ⟨["E", "A", "B"], false⟩),
   ("F Major", ⟨["B"], false⟩),
   ("F# Major", ⟨["F", "G", "A", "C", "D", "E"], true⟩),
   ("G Major", ⟨["F"], true⟩),
   ("G♭ Major", ⟨["G", "A", "B", "C", "D", "E"], false⟩),
   ("A Major", ⟨["C", "F", "G"], true⟩),
   ("A♭ Major", ⟨["A", "B", "D", "E"], false⟩),
   ("B Major", ⟨["C", "D", "F", "G", "A"], true⟩),
   ("B♭ Major", ⟨["B", "E"], false⟩)]

/-- The default `this.currentScale = "C Major"`. -/
def cMajor : ScaleDef := ⟨[], true⟩

/-- One entry of `this.customBindings`: per-key `{ norm, shift }` replacement
characters (the song editor stores single characters). -/
structure Binding where
  norm : Option Char
  shift : Option Char
deriving DecidableEq

/-- Lookup `this.customBindings[k]`. -/
def lookupBinding (B : List (Char × Binding)) (k : Char) : Option Binding :=
  (B.find? (fun p => p.1 == k)).map (fun p => p.2)

/-- The local `specialShiftToBase` table of `getMidi`. -/
def specialShiftToBase (c : Char) : Option Char :=
  if c = '\x7b' then some '[' else if c = '\x7d' then some ']'
  else if c = ':' then some ';' else if c = Char.ofNat 34 then some (Char.ofNat 39)
  else if c = '<' then some ',' else if c = '>' then some '.'
  else if c = '?' then some '/' else none

/-- The regex test `/[A-Z]/.test(s)` for a single character. -/
def isUpperCh (c : Char) : Bool := 'A' ≤ c && c ≤ 'Z'

/-- `this.keyMap.indexOf(char)`, as an `Option`. -/
def keyIndexOf (c : Char) : Option Nat := keyMap.findIdx? (fun k => k == c)

/-- `const char = this.shiftMap[targetKey] || targetKey.toLowerCase()`: the
effective keyboard-row character for a target key. -/
def effChar (targetKey : Char) : Char := (shiftMapBase targetKey).getD targetKey.toLower

/-- Lines 82–93 of `getMidi`: resolve the translated `targetKey`/`targetShift`
through the keyboard-row table and the active scale. -/
def getMidiCore (sc : ScaleDef) (targetKey : Char) (targetShift : Bool) : Option Int :=
  match keyIndexOf (effChar targetKey) with
  | none => none
  | some idx =>
    let name := whiteNames.getD (idx % 7) ""
    let midi : Int := ((idx / 7 + 1) * 12 + whiteOffset name : Nat)
    if sc.notes.contains name then
      if targetShift then some midi
      else if sc.sharps then some (midi + 1) else some (midi - 1)
    else
      if targetShift then some (midi + 1) else some midi

/-- `MusicLogic.getMidi(input, isShift)` with the scale and custom bindings
passed explicitly (they are fields of `this` in the source). -/
def getMidi (sc : ScaleDef) (B : List (Char × Binding)) (input : Char) (isShift : Bool) :
    Option Int :=
  let isCharShifted := (specialShiftToBase input).isSome
  let lookupKey := (specialShiftToBase input).getD input
  let target : Char × Bool :=
    match lookupBinding B lookupKey with
    | none => (input, isShift || isCharShifted)
    | some b =>
      match (if isShift || isCharShifted then b.shift else b.norm) with
      | none => (input, isShift || isCharShifted)
      | some m => (m.toLower, isUpperCh m || (shiftMapBase m).isSome)
  getMidiCore sc target.1 target.2

/-- The chromatic name table of `midiToName`. -/
def chromaticNames : List String :=
  ["C", "C#", "D"] ++ ["D#", "E", "F"] ++
    ["F#", "G", "G#"] ++ ["A", "A#", "B"]

/-- `MusicLogic.midiToName(m)`. -/
def midiToName (m : Int) : String := chromaticNames.getD (m % 12).toNat ""

/-- The "natural" pitch of keyboard position `idx`: the `midi` value computed
by `getMidi` before any scale alteration or shift is applied. -/
def naturalOf (idx : Nat) : Int :=
  ((idx / 7 + 1) * 12 + whiteOffset (whiteNames.getD (idx % 7) "") : Nat)

/-- Bool-level statement of claim C1 for one scale and one input character:
if the character does not reach the keyboard-row table both resolutions fail;
otherwise the (unshifted, shifted) pitches are (natural, natural+1) for a
scale-foreign name, and (natural±1, natural) for an altered name, the sign
given by the sharps flag. -/
def c1check (sc : ScaleDef) (c : Char) : Bool :=
  match keyIndexOf (effChar c) with
  | none => getMidi sc [] c false == none && getMidi sc [] c true == none
  | some idx =>
    let name := whiteNames.getD (idx % 7) ""
    let nat : Int := naturalOf idx
    if sc.notes.contains name then
      getMidi sc [] c false == some (if sc.sharps then nat + 1 else nat - 1) &&
      getMidi sc [] c true == some nat
    else
      getMidi sc [] c false == some nat && getMidi sc [] c true == some (nat + 1)

/-- The printable ASCII characters, the key identifiers a browser key event or
a sheet can produce. -/
def printableAscii : List Char := (List.range 95).map (fun n => Char.ofNat (32 + n))

/-! ## NoteTranslator (src/core/NoteTranslator.js) -/

/-- The whitespace class removed by `String.prototype.trim`. -/
def isWsCh (c : Char) : Bool := c = ' ' || c = '\t' || c = '\n' || c = '\r'

/-- `line.trim()`. -/
def trimL (l : List Char) : List Char :=
  ((l.dropWhile isWsCh).reverse.dropWhile isWsCh).reverse

/-- `line.trim().startsWith("-")`, the comment-line test. -/
def isCommentLine (l : List Char) : Bool := (trimL l).head? == some '-'

/-- The special syntax characters preserved by `translateLineKeysToNotes`. -/
def syntaxChars : List Char := [' ', '[', ']', '\x7b', '\x7d', '.', '~', '|', '(', ')']

/-- The per-character key/shift computation of `translateLineKeysToNotes`
followed by `this.logic.getMidi(key, isShift)`: an uppercase letter is
lowercased with shift forced, a shift-symbol is replaced by its base digit
with shift forced, anything else is resolved unshifted. -/
def translateResolve (sc : ScaleDef) (B : List (Char × Binding)) (c : Char) : Option Int :=
  if isUpperCh c then getMidi sc B c.toLower true
  else
    match shiftMapBase c with
    | some b => getMidi sc B b true
    | none => getMidi sc B c false

/-- Decimal digit character for `d < 10` (the last case collects `9`). -/
def digitChar (d : Nat) : Char :=
  match d with
  | 0 => '0' | 1 => '1' | 2 => '2' | 3 => '3' | 4 => '4'
  | 5 => '5' | 6 => '6' | 7 => '7' | 8 => '8' | _ => '9'

/-- Decimal digit list of a natural number, with a structural fuel parameter
(the fuel only bounds the recursion depth; `natDigits` passes enough). -/
def natDigitsF : Nat → Nat → List Char
  | 0, n => [digitChar n]
  | fuel + 1, n =>
    if n < 10 then [digitChar n]
    else natDigitsF fuel (n / 10) ++ [digitChar (n % 10)]

/-- Decimal digit list of a natural number (JS number-to-string for `n ≥ 0`). -/
def natDigits (n : Nat) : List Char := natDigitsF n n

/-- JS number-to-string for an integer (used for the octave in `${octave}`). -/
def intToChars (i : Int) : List Char :=
  if i < 0 then '-' :: natDigits i.natAbs else natDigits i.toNat

/-- The characters after the opening `<` of a generated readable-note token
`<name octave>`: lowercased chromatic name, decimal octave, closing `>`. -/
def bodyOf (m : Int) : List Char :=
  (midiToName m).toList.map Char.toLower ++ intToChars (m / 12 - 1) ++ ['>']

/-- The full generated token `<${noteName.toLowerCase()}${octave}>` where
`octave = Math.floor(midi / 12) - 1`. -/
def noteTokenOf (m : Int) : List Char := '<' :: bodyOf m

/-- What one character of a non-comment line becomes under
`translateLineKeysToNotes`: syntax characters and unresolvable characters pass
through, resolvable characters become a readable-note token. -/
def pieceOf (sc : ScaleDef) (B : List (Char × Binding)) (c : Char) : List Char :=
  if syntaxChars.contains c then [c]
  else
    match translateResolve sc B c with
    | some m => noteTokenOf m
    | none => [c]

/-- `translateLineKeysToNotes(line)`: the source's `while` loop appends the
piece for each character in order. -/
def translateLine (sc : ScaleDef) (B : List (Char × Binding)) (line : List Char) : List Char :=
  line.flatMap (pieceOf sc B)

/-- `sheetString.split("\n")`. -/
def splitLines : List Char → List (List Char)
  | [] => [[]]
  | c :: rest =>
    if c = '\n' then [] :: splitLines rest
    else
      match splitLines rest with
      | [] => [[c]]
      | l :: ls => (c :: l) :: ls

/-- `translatedLines.join("\n")`. -/
def joinLines : List (List Char) → List Char
  | [] => []
  | [l] => l
  | l :: ls => l ++ '\n' :: joinLines ls

/-- `NoteTranslator.keysToNotes(sheetString)`: per line, comment lines pass
through untranslated, other lines go through `translateLineKeysToNotes`. -/
def keysToNotesL (sc : ScaleDef) (B : List (Char × Binding)) (S : List Char) : List Char :=
  joinLines ((splitLines S).map (fun line =>
    if isCommentLine line then line else translateLine sc B line))

/-- The `offsets` table of `getMidiFromNoteName`. -/
def noteOffsets : List (String × Int) :=
  [("c", 0), ("c#", 1), ("d", 2), ("d#", 3), ("e", 4), ("f", 5),
   ("f#", 6), ("g", 7), ("g#", 8), ("a", 9), ("a#", 10), ("b", 11)]

/-- `NoteTranslator.getMidiFromNoteName(noteName, octave)`. -/
def getMidiFromNoteName (noteName : List Char) (octave : Int) : Option Int :=
  let n := String.mk (noteName.map Char.toLower)
  match (noteOffsets.find? (fun p => p.1 == n)).map (fun p => p.2) with
  | none => none
  | some off => some ((octave + 1) * 12 + off)

/-- `NoteTranslator.findKeyForMidi(targetMidi)`: unshifted keys first, then
shifted keys rendered as their shift symbol or as an uppercase letter. -/
def findKeyForMidi (sc : ScaleDef) (B : List (Char × Binding)) (targetMidi : Int) :
    Option Char :=
  match keyMap.find? (fun c => getMidi sc B c false == some targetMidi) with
  | some c => some c
  | none =>
    match keyMap.find? (fun c => getMidi sc B c true == some targetMidi) with
    | some c =>
      match shiftKeyFor c with
      | some s => some s
      | none => some c.toUpper
    | none => none

/-- The regex character class `[a-g]` under the `i` flag. -/
def noteLetters : List Char :=
  ['a', 'b', 'c', 'd', 'e', 'f', 'g'] ++
    ['A', 'B', 'C', 'D', 'E', 'F', 'G']

/-- The regex character class `\d`. -/
def isDigitB (c : Char) : Bool := decide ('0' ≤ c ∧ c ≤ '9')

/-- `parseInt` digit accumulation for a run of decimal digits. -/
def foldDigits (l : List Char) : Nat :=
  l.foldl (fun acc c => 10 * acc + (c.toNat - 48)) 0

/-- Stage 3 of one attempt of the regex `/<([a-g][#]?)(-?\d+)>/gi`: after the
name capture `nm` and an optional sign, a non-empty maximal digit run followed
by `>` completes the match; anything else fails the whole attempt, exactly as
the regex does (the optional `#`/`-` cannot backtrack into a digit). -/
def tryDigits (nm : List Char) (neg : Bool) (r2 : List Char) :
    Option (List Char × List Char × Int) :=
  let digits := r2.takeWhile isDigitB
  if digits.isEmpty then none
  else
    match r2.dropWhile isDigitB with
    | c3 :: _ =>
      if c3 = '>' then
        some (nm ++ (if neg then ['-'] else []) ++ digits ++ ['>'],
          nm, (if neg then -1 else 1) * (foldDigits digits : Int))
      else none
    | [] => none

/-- Stage 2: the optional `-` sign of the octave capture. -/
def tryAfterName (nm : List Char) (r1 : List Char) :
    Option (List Char × List Char × Int) :=
  match r1 with
  | c2 :: r2 => if c2 = '-' then tryDigits nm true r2 else tryDigits nm false r1
  | [] => tryDigits nm false r1

/-- Stage 1: the optional `#` of the name capture. -/
def trySharp (c : Char) (r0 : List Char) : Option (List Char × List Char × Int) :=
  match r0 with
  | c1 :: r1 => if c1 = '#' then tryAfterName [c, '#'] r1 else tryAfterName [c] r0
  | [] => tryAfterName [c] r0

/-- One attempt of the regex `/<([a-g][#]?)(-?\d+)>/gi` at a position just
after an opening `<`: a case-insensitive note letter, an optional sharp, then
the signed octave; on success returns (consumed characters, the note-name
capture, the parsed octave). -/
def tryMatch (l : List Char) : Option (List Char × List Char × Int) :=
  match l with
  | [] => none
  | c :: r0 => if noteLetters.contains c then trySharp c r0 else none

/-- `sheetString.replace(/<([a-g][#]?)(-?\d+)>/gi, ...)` of `notesToKeys`:
scan left to right; at each `<` try the pattern; on a match emit the key
combination for the parsed pitch (or the matched text verbatim when no key
produces it) and continue after the match; otherwise copy one character. -/
def notesToKeysScanF (sc : ScaleDef) (B : List (Char × Binding)) :
    Nat → List Char → List Char
  | _, [] => []
  | 0, l => l
  | fuel + 1, c :: rest =>
    if c = '<' then
      match tryMatch rest with
      | some (matched, name, oct) =>
        let rem := rest.drop matched.length
        (match getMidiFromNoteName name oct with
         | none => '<' :: matched
         | some m =>
           match findKeyForMidi sc B m with
           | some k => [k]
           | none => '<' :: matched) ++ notesToKeysScanF sc B fuel rem
      | none => '<' :: notesToKeysScanF sc B fuel rest
    else c :: notesToKeysScanF sc B fuel rest

/-- `NoteTranslator.notesToKeys(sheetString)`: the scan with enough fuel (the
fuel only bounds the recursion depth, which the source bounds by the string
length because every step consumes at least one character). -/
def notesToKeysL (sc : ScaleDef) (B : List (Char × Binding)) (S : List Char) : List Char :=
  notesToKeysScanF sc B S.length S

/-- What one character of a comment-free sheet becomes after the round trip
`notesToKeys(keysToNotes(S))` under empty custom bindings: preserved
characters stay, translated characters become the key found for their pitch. -/
def roundChar (sc : ScaleDef) (c : Char) : List Char :=
  if syntaxChars.contains c then [c]
  else
    match translateResolve sc [] c with
    | some m => [(findKeyForMidi sc [] m).getD '?']
    | none => [c]

/-! ## AutoPlayer (src/unnamed/part_000) -/

/-- One entry of the `visualQueue` (a JS object with a `time` field and a
payload): `stopCmd` is `{time, type: "stop_command"}`, `skip` is
`{time, lineIdx, isSkip: true}`, `highlight` is `{time, lineIdx, text, isRest}`,
`flash` is `{time, midi}`, and `seekMark` is the `{time: 0, lineIdx}` object
pushed by `seek`. -/
inductive VEvent where
  | stopCmd (time : ℚ)
  | skip (time : ℚ) (lineIdx : Nat)
  | highlight (time : ℚ) (lineIdx : Nat) (text : Option (List Char)) (isRest : Bool)
  | flash (time : ℚ) (midi : Int)
  | seekMark (time : ℚ) (lineIdx : Nat)
deriving DecidableEq

/-- The `time` field of a visual-queue entry. -/
def VEvent.time : VEvent → ℚ
  | .stopCmd t => t
  | .skip t _ => t
  | .highlight t _ _ _ => t
  | .flash t _ => t
  | .seekMark t _ => t

/-- The mutable state of an `AutoPlayer` instance.  `audioLog` records the
`this.audio.play(midi, time)` calls and `dispatched` the events handed to
`callbacks.onVisualEvent`; `stopNotices` counts `callbacks.onStop` calls.
The `timerID`/`animationFrameId` handles are external to the model; the
logic engine reference `this.logic` is snapshotted as `scale`/`bindings`. -/
structure PlayerState where
  songLoaded : Bool
  rawLines : List (List Char)
  baseBPM : ℚ
  tempoScale : ℚ
  nextNoteTime : ℚ
  currentLineIdx : Nat
  charIdx : Nat
  schedulingFinished : Bool
  isPlaying : Bool
  visualQueue : List VEvent
  audioLog : List (Int × ℚ)
  dispatched : List VEvent
  stopNotices : Nat
  scale : ScaleDef
  bindings : List (Char × Binding)
deriving DecidableEq

/-- `AutoPlayer.queueVisual(data)`. -/
def queueVisual (s : PlayerState) (e : VEvent) : PlayerState :=
  { s with visualQueue := s.visualQueue ++ [e] }

/-- The result record of `getNextToken`: `text` is `none` when the source
returns the `undefined` character read past the end of the line. -/
structure Token where
  text : Option (List Char)
  nextIndex : Nat
  isGrace : Bool := false
  isRest : Bool := false
deriving DecidableEq

/-- `line.indexOf(target, start)` restricted to the tail `l = line.drop start`,
accumulating the absolute index. -/
def indexOfFromAux (l : List Char) (target : Char) (i : Nat) : Option Nat :=
  match l with
  | [] => none
  | c :: rest => if c = target then some i else indexOfFromAux rest target (i + 1)

/-- `AutoPlayer.getNextToken(line, startIndex)` viewed through the remaining
characters `line.drop startIndex` (structurally recursive over them): a `[`…`]`
span is a chord, a `\x7b`…`\x7d` span a grace run, `.` a rest, a space recurses
to the next character, reading past the end yields the `undefined` token. -/
def getNextTokenAux : List Char → Nat → Token
  | [], i => ⟨none, i + 1, false, false⟩
  | c :: rest, i =>
    if c = '[' then
      match indexOfFromAux (c :: rest) ']' i with
      | none => ⟨some [], i + 1, false, false⟩
      | some e => ⟨some ((c :: rest).drop 1 |>.take (e - i - 1)), e + 1, false, false⟩
    else if c = '\x7b' then
      match indexOfFromAux (c :: rest) '\x7d' i with
      | none => ⟨some [], i + 1, false, false⟩
      | some e => ⟨some ((c :: rest).drop 1 |>.take (e - i - 1)), e + 1, true, false⟩
    else if c = '.' then ⟨some ['.'], i + 1, false, true⟩
    else if c = ' ' then getNextTokenAux rest (i + 1)
    else ⟨some [c], i + 1, false, false⟩

/-- `AutoPlayer.getNextToken(line, startIndex)`. -/
def getNextToken (line : List Char) (startIndex : Nat) : Token :=
  getNextTokenAux (line.drop startIndex) startIndex

/-- The unit-splitting loop of `scheduleNote`, with a structural fuel
parameter (every iteration consumes at least one character, so the text length
is enough fuel): a `[`…`]` span is one unit, anything else a single char. -/
def splitUnitsF : Nat → List Char → List (List Char)
  | _, [] => []
  | 0, l => [l]
  | fuel + 1, c :: rest =>
    if c = '[' then
      match indexOfFromAux rest ']' 0 with
      | some j => rest.take j :: splitUnitsF fuel (rest.drop (j + 1))
      | none => [c] :: splitUnitsF fuel rest
    else [c] :: splitUnitsF fuel rest

/-- The `notes` array built by `scheduleNote` from a token text. -/
def splitUnits (l : List Char) : List (List Char) := splitUnitsF l.length l

/-- The per-character key/shift computation of `AutoPlayer.fireSound` followed
by `this.logic.getMidi(key, shift)`: an uppercase letter is lowercased with
shift set, then a shift-symbol is replaced by its base digit with shift set. -/
def fireResolve (sc : ScaleDef) (B : List (Char × Binding)) (c : Char) : Option Int :=
  let p1 : Char × Bool := if isUpperCh c then (c.toLower, true) else (c, false)
  let p2 : Char × Bool :=
    match shiftMapBase c with
    | some b => (b, true)
    | none => p1
  getMidi sc B p2.1 p2.2

/-- `AutoPlayer.fireSound(charString, time)`: resolve each character; on
success call `audio.play(midi, time)` and queue a `{time, midi}` visual. -/
def fireSound (s : PlayerState) (cs : List Char) (time : ℚ) : PlayerState :=
  cs.foldl
    (fun st c =>
      match fireResolve st.scale st.bindings c with
      | some m =>
        { st with
          audioLog := st.audioLog ++ [(m, time)],
          visualQueue := st.visualQueue ++ [VEvent.flash time m] }
      | none => st)
    s

/-- `AutoPlayer.scheduleNote(text, startTime, durationSec, isGrace)`. -/
def scheduleNote (s : PlayerState) (text : Option (List Char))
    (startTime durationSec : ℚ) (isGrace : Bool) : PlayerState :=
  match text with
  | none => s
  | some t =>
    if t = [] ∨ t = ['.'] then s
    else
      let notes := splitUnits t
      if isGrace then
        let stepTime := durationSec / (if notes.length = 0 then 1 else (notes.length : ℚ))
        notes.enum.foldl
          (fun st p => fireSound st p.2 (startTime + (p.1 : ℚ) * stepTime)) s
      else
        notes.foldl (fun st u => fireSound st u startTime) s

/-- `const secondsPerBeat = 60 / this.baseBPM / this.tempoScale`. -/
def secondsPerBeat (baseBPM tempoScale : ℚ) : ℚ := 60 / baseBPM / tempoScale

/-- `AutoPlayer.scheduleNextToken()`: one step of the lookahead scheduler. -/
def scheduleNextToken (s : PlayerState) : PlayerState :=
  if s.schedulingFinished then s
  else if s.rawLines.length ≤ s.currentLineIdx then
    { s with
      schedulingFinished := true,
      visualQueue := s.visualQueue ++ [VEvent.stopCmd (s.nextNoteTime + 1)] }
  else
    let line := s.rawLines.getD s.currentLineIdx []
    let trimmed := trimL line
    if trimmed = [] ∨ trimmed = ['~'] ∨ trimmed.head? = some '-' then
      { s with
        visualQueue := s.visualQueue ++ [VEvent.skip s.nextNoteTime s.currentLineIdx],
        currentLineIdx := s.currentLineIdx + 1,
        charIdx := 0 }
    else if line.length ≤ s.charIdx then
      { s with currentLineIdx := s.currentLineIdx + 1, charIdx := 0 }
    else
      let token := getNextToken line s.charIdx
      let spb := secondsPerBeat s.baseBPM s.tempoScale
      let s1 := { s with charIdx := token.nextIndex }
      let s2 :=
        if token.isRest then s1
        else scheduleNote s1 token.text s.nextNoteTime spb token.isGrace
      let s3 :=
        { s2 with
          visualQueue := s2.visualQueue ++
            [VEvent.highlight s.nextNoteTime s.currentLineIdx token.text token.isRest] }
      { s3 with nextNoteTime := s.nextNoteTime + spb }

/-- `AutoPlayer.pause()` (the timer and animation-frame cancellations are
external to the model). -/
def pauseFn (s : PlayerState) : PlayerState := { s with isPlaying := false }

/-- `AutoPlayer.reset()`. -/
def resetFn (s : PlayerState) : PlayerState :=
  { s with currentLineIdx := 0, charIdx := 0, visualQueue := [], schedulingFinished := false }

/-- `AutoPlayer.stop()`: pause, reset, notify `callbacks.onStop`. -/
def stopFn (s : PlayerState) : PlayerState :=
  let s1 := resetFn (pauseFn s)
  { s1 with stopNotices := s1.stopNotices + 1 }

/-- The `while` loop of `AutoPlayer.draw()` at audio-clock time `now`,
structurally recursive on a fuel bounded by the queue length (the loop shifts
one event per iteration): drain events due at `now` (or unconditionally while
not playing), dispatch them to `onVisualEvent`, run `stop()` on a
`stop_command`, and when not playing break after a single event. -/
def drawLoopF (now : ℚ) : Nat → PlayerState → PlayerState
  | 0, s => s
  | fuel + 1, s =>
    match s.visualQueue with
    | [] => s
    | e :: rest =>
      if e.time ≤ now ∨ s.isPlaying = false then
        match e with
        | .stopCmd _ => stopFn s
        | _ =>
          let s' := { s with visualQueue := rest, dispatched := s.dispatched ++ [e] }
          if s'.isPlaying = false then s' else drawLoopF now fuel s'
      else s

/-- The synchronous part of `AutoPlayer.draw()` (re-arming the animation frame
is external to the model). -/
def draw (s : PlayerState) (now : ℚ) : PlayerState := drawLoopF now s.visualQueue.length s

/-- `this.scheduleAheadTime = 0.1`. -/
def scheduleAheadTime : ℚ := 1 / 10

/-- The `while` loop of `AutoPlayer.scheduler()` at audio-clock time `now`,
with a fuel bound on the iterations (the source loop terminates because every
iteration either advances `nextNoteTime` or the cursor). -/
def schedulerLoopF (now : ℚ) : Nat → PlayerState → PlayerState
  | 0, s => s
  | fuel + 1, s =>
    if s.isPlaying = true ∧ s.schedulingFinished = false ∧
        s.nextNoteTime < now + scheduleAheadTime then
      schedulerLoopF now fuel (scheduleNextToken s)
    else s

/-- `AutoPlayer.play()` at audio-clock time `now` (`audio.init()` and the
timer arm are external): anchor `nextNoteTime` to `now + 0.05`, run the
scheduler loop synchronously, then one `draw` pass. -/
def play (s : PlayerState) (now : ℚ) (fuel : Nat) : PlayerState :=
  if s.songLoaded = false then s
  else
    let s1 := { s with isPlaying := true, nextNoteTime := now + 1 / 20 }
    draw (schedulerLoopF now fuel s1) now

/-- `AutoPlayer.seek(lineIndex)` at audio-clock time `now`: out-of-range
targets and a missing song are rejected up front; otherwise pause if playing,
reposition the cursor, clear the queue, push the immediate `{time: 0, lineIdx}`
visual, force one draw pass, and re-enter `play` if it was playing. -/
def seek (s : PlayerState) (lineIndex : Int) (now : ℚ) (fuel : Nat) : PlayerState :=
  if s.songLoaded = false ∨ lineIndex < 0 ∨ (s.rawLines.length : Int) ≤ lineIndex then s
  else
    let wasPlaying := s.isPlaying
    let s1 := if wasPlaying then pauseFn s else s
    let s2 :=
      { s1 with
        currentLineIdx := lineIndex.toNat,
        charIdx := 0,
        visualQueue := [],
        schedulingFinished := false }
    let s3 := queueVisual s2 (VEvent.seekMark 0 lineIndex.toNat)
    let s4 := draw s3 now
    if wasPlaying then play s4 now fuel else s4

/-! ## AudioEngine (src/unnamed/part_001) -/

/-- The state of an `AudioEngine` instance: the decoded-sample cache keys,
the pitches whose lazy `preload` has been triggered, the scheduled
`source.start(playTime)` calls, and the audio clock. -/
structure AudioState where
  samples : List Int
  preloads : List Int
  started : List (Int × ℚ)
  ctxTime : ℚ
deriving DecidableEq

/-- `AudioEngine.play(midi, time)` of src/unnamed/part_001: pitches above 72
are rejected up front ("Only 72 notes on the keyboard"); a missing sample
triggers a lazy preload and schedules nothing; otherwise the sample is
scheduled at `time || this.ctx.currentTime`. -/
def AudioEngine.play (a : AudioState) (midi : Int) (time : ℚ) : AudioState :=
  if 72 < midi then a
  else if a.samples.contains midi = false then
    { a with preloads := a.preloads ++ [midi] }
  else
    let playTime := if time = 0 then a.ctxTime else time
    { a with started := a.started ++ [(midi, playTime)] }

/-- A convenient freshly-loaded scheduler state used by concrete witnesses:
song loaded, default C-major logic, empty queues and logs. -/
def mkState (lines : List (List Char)) (lineIdx charIdx : Nat) (t : ℚ) : PlayerState :=
  { songLoaded := true, rawLines := lines, baseBPM := 120, tempoScale := 1,
    nextNoteTime := t, currentLineIdx := lineIdx, charIdx := charIdx,
    schedulingFinished := false, isPlaying := true, visualQueue := [],
    audioLog := [], dispatched := [], stopNotices := 0, scale := cMajor, bindings := [] }

/-- The scheduler state reached after some steps over the line `"aaaa"`. -/
def c6state (t : ℚ) (j : Nat) (vq : List VEvent) (al : List (Int × ℚ)) : PlayerState :=
  { songLoaded := true, rawLines := [['a', 'a', 'a', 'a']], baseBPM := 120, tempoScale := 1,
    nextNoteTime := t, currentLineIdx := 0, charIdx := j, schedulingFinished := false,
    isPlaying := true, visualQueue := vq, audioLog := al, dispatched := [], stopNotices := 0,
    scale := cMajor, bindings := [] }

/-! ## Helper lemmas -/

/-- A successful `shiftMap` lookup identifies one of the ten concrete pairs. -/
theorem mem_of_shiftMapBase {c b : Char} (h : shiftMapBase c = some b) :
    c = '!' ∧ b = '1' ∨ c = '@' ∧ b = '2' ∨ c = '#' ∧ b = '3' ∨ c = '$' ∧ b = '4' ∨
    c = '%' ∧ b = '5' ∨ c = '^' ∧ b = '6' ∨ c = '&' ∧ b = '7' ∨ c = '*' ∧ b = '8' ∨
    c = '(' ∧ b = '9' ∨ c = ')' ∧ b = '0' := by
  unfold shiftMapBase at h
  cases hf : shiftMapPairs.find? (fun p => p.1 == c) with
  | none => rw [hf] at h; cases h
  | some q =>
    rw [hf] at h
    have hq : q.1 = c := by simpa using List.find?_some hf
    have hm := List.mem_of_find?_eq_some hf
    have hb : q.2 = b := by simpa using h
    subst hq
    subst hb
    fin_cases hm <;> decide

/-- Shift symbols are not uppercase letters. -/
theorem shiftMapBase_not_upper {c b : Char} (h : shiftMapBase c = some b) :
    isUpperCh c = false := by
  rcases mem_of_shiftMapBase h with
    ⟨rfl, -⟩ | ⟨rfl, -⟩ | ⟨rfl, -⟩ | ⟨rfl, -⟩ | ⟨rfl, -⟩ |
    ⟨rfl, -⟩ | ⟨rfl, -⟩ | ⟨rfl, -⟩ | ⟨rfl, -⟩ | ⟨rfl, -⟩ <;> decide

/-! ## Claim theorems -/

/-- C1: for every active scale and every printable key character, when the
character reaches the keyboard-row table with natural pitch `nat`: a name not
in the scale's altered set resolves to `nat` unshifted and `nat + 1` shifted;
a name in the altered set resolves to `nat + 1` (sharps) or `nat - 1` (flats)
unshifted, and to `nat` shifted.  Characters missing from the table resolve to
nothing. -/
theorem getMidi_scale_resolution :
    ∀ p ∈ scalesList, ∀ c ∈ printableAscii, c1check p.2 c = true := by decide

theorem getMidi_scale_resolution_witness :
    (("G Major", (⟨["F"], true⟩ : ScaleDef)) ∈ scalesList ∧ 'q' ∈ printableAscii) ∧
    c1check ⟨["F"], true⟩ 'q' = true :=
  ⟨⟨by decide, by decide⟩,
    getMidi_scale_resolution ("G Major", ⟨["F"], true⟩) (by decide) 'q' (by decide)⟩

/-- C2: the scheduled-playback pitch resolution (`AutoPlayer.fireSound`
preprocessing plus `MusicLogic.getMidi`) treats a shift-symbol character as a
shifted press of its base digit, and an uppercase letter as a shifted press of
its lowercase form, for every scale and binding table. -/
theorem fireResolve_shift_alias (sc : ScaleDef) (B : List (Char × Binding)) :
    (∀ sym base, shiftMapBase sym = some base →
      fireResolve sc B sym = getMidi sc B base true) ∧
    (∀ c : Char, isUpperCh c = true →
      fireResolve sc B c = getMidi sc B c.toLower true) := by
  constructor
  · intro sym base h
    simp [fireResolve, h]
  · intro c h
    have hn : shiftMapBase c = none := by
      cases hs : shiftMapBase c with
      | none => rfl
      | some b => rw [shiftMapBase_not_upper hs] at h; cases h
    simp [fireResolve, hn, h]

theorem fireResolve_shift_alias_witness :
    (shiftMapBase '!' = some '1' ∧ fireResolve cMajor [] '!' = getMidi cMajor [] '1' true) ∧
    (isUpperCh 'Q' = true ∧ fireResolve cMajor [] 'Q' = getMidi cMajor [] 'q' true) :=
  ⟨⟨by decide, (fireResolve_shift_alias cMajor []).1 '!' '1' (by decide)⟩,
   ⟨by decide, (fireResolve_shift_alias cMajor []).2 'Q' (by decide)⟩⟩

/-- C4: whenever some unshifted key resolves to pitch `p`, the inverse
resolution `findKeyForMidi` returns a plain (unshifted) keyboard-row key that
resolves to `p` unshifted; a shifted combination is only ever returned when
the first search loop fails. -/
theorem findKeyForMidi_prefers_unshifted (sc : ScaleDef) (B : List (Char × Binding)) (p : Int)
    (h : ∃ c ∈ keyMap, getMidi sc B c false = some p) :
    ∃ k, findKeyForMidi sc B p = some k ∧ k ∈ keyMap ∧ getMidi sc B k false = some p := by
  obtain ⟨c, hc, hres⟩ := h
  have hsome : (keyMap.find? (fun c => getMidi sc B c false == some p)).isSome := by
    rw [List.find?_isSome]
    exact ⟨c, hc, by simp [hres]⟩
  obtain ⟨k, hk⟩ := Option.isSome_iff_exists.mp hsome
  refine ⟨k, ?_, List.mem_of_find?_eq_some hk, by simpa using List.find?_some hk⟩
  unfold findKeyForMidi
  rw [hk]

theorem findKeyForMidi_prefers_unshifted_witness :
    (∃ c ∈ keyMap, getMidi cMajor [] c false = some 29) ∧
    ∃ k, findKeyForMidi cMajor [] 29 = some k ∧ k ∈ keyMap ∧
      getMidi cMajor [] k false = some 29 :=
  ⟨⟨'q', by decide, by decide⟩,
    findKeyForMidi_prefers_unshifted cMajor [] 29 ⟨'q', by decide, by decide⟩⟩

/-- C7: one scheduling step over a line trimming to `"~"` or starting (after
trim) with `"-"` only appends a skip visual event stamped with the current
next-scheduled-time and advances the cursor to the next line; next-scheduled-
time, the audio log and everything else are untouched. -/
theorem skip_line_step (s : PlayerState) (h0 : s.schedulingFinished = false)
    (h1 : s.currentLineIdx < s.rawLines.length)
    (h2 : trimL (s.rawLines.getD s.currentLineIdx []) = ['~'] ∨
      (trimL (s.rawLines.getD s.currentLineIdx [])).head? = some '-') :
    scheduleNextToken s =
      { s with
        visualQueue := s.visualQueue ++ [VEvent.skip s.nextNoteTime s.currentLineIdx],
        currentLineIdx := s.currentLineIdx + 1,
        charIdx := 0 } := by
  unfold scheduleNextToken
  rw [if_neg (by simp [h0]), if_neg (by omega),
    if_pos (by rcases h2 with h | h; exacts [Or.inr (Or.inl h), Or.inr (Or.inr h)])]

theorem skip_line_step_witness :
    scheduleNextToken (mkState [['~']] 0 0 2) =
      { mkState [['~']] 0 0 2 with
        visualQueue := [VEvent.skip 2 0], currentLineIdx := 1, charIdx := 0 } :=
  skip_line_step (mkState [['~']] 0 0 2) (by decide) (by decide) (Or.inl (by decide))

/-- C8: a seek with no song loaded or with a target outside `[0, lineCount)`
returns the state completely unchanged. -/
theorem seek_out_of_range_noop (s : PlayerState) (lineIndex : Int) (now : ℚ) (fuel : Nat)
    (h : s.songLoaded = false ∨ lineIndex < 0 ∨ (s.rawLines.length : Int) ≤ lineIndex) :
    seek s lineIndex now fuel = s := by
  unfold seek
  rw [if_pos h]

theorem seek_out_of_range_noop_witness :
    seek (mkState [['a']] 0 0 0) 5 0 10 = mkState [['a']] 0 0 0 :=
  seek_out_of_range_noop (mkState [['a']] 0 0 0) 5 0 10 (by decide)

/-- C10: the audio engine rejects every pitch above 72 before touching the
context, the sample cache, the preload list or the schedule. -/
theorem audio_play_high_pitch_noop (a : AudioState) (midi : Int) (time : ℚ)
    (h : 72 < midi) : AudioEngine.play a midi time = a := by
  unfold AudioEngine.play
  rw [if_pos h]

theorem audio_play_high_pitch_noop_witness :
    AudioEngine.play ⟨[], [], [], 0⟩ 73 5 = ⟨[], [], [], 0⟩ :=
  audio_play_high_pitch_noop ⟨[], [], [], 0⟩ 73 5 (by decide)

/-- Unfolding equation for the token branch of `scheduleNextToken`. -/
theorem scheduleNextToken_eq_token (s : PlayerState)
    (h0 : s.schedulingFinished = false)
    (h1 : s.currentLineIdx < s.rawLines.length)
    (ht : ¬(trimL (s.rawLines.getD s.currentLineIdx []) = [] ∨
        trimL (s.rawLines.getD s.currentLineIdx []) = ['~'] ∨
        (trimL (s.rawLines.getD s.currentLineIdx [])).head? = some '-'))
    (hc : s.charIdx < (s.rawLines.getD s.currentLineIdx []).length) :
    scheduleNextToken s =
      (let line := s.rawLines.getD s.currentLineIdx []
       let token := getNextToken line s.charIdx
       let spb := secondsPerBeat s.baseBPM s.tempoScale
       let s1 := { s with charIdx := token.nextIndex }
       let s2 :=
         if token.isRest then s1
         else scheduleNote s1 token.text s.nextNoteTime spb token.isGrace
       let s3 :=
         { s2 with
           visualQueue := s2.visualQueue ++
             [VEvent.highlight s.nextNoteTime s.currentLineIdx token.text token.isRest] }
       { s3 with nextNoteTime := s.nextNoteTime + spb }) := by
  unfold scheduleNextToken
  rw [if_neg (by simp [h0]), if_neg (by omega), if_neg ht, if_neg (by omega)]

/-- Reading a space recurses to the next character. -/
theorem getNextToken_space {line : List Char} {i : Nat} (h : line.get? i = some ' ') :
    getNextToken line i = getNextToken line (i + 1) := by
  obtain ⟨hi, hg⟩ := List.get?_eq_some.mp h
  rw [List.get_eq_getElem] at hg
  unfold getNextToken
  rw [List.drop_eq_getElem_cons hi, hg]
  simp [getNextTokenAux]

/-- `getNextToken` over a run of spaces reaching the end of the input returns
the `undefined` token with `nextIndex` one past the end. -/
theorem getNextTokenAux_spaces {l : List Char} (h : ∀ c ∈ l, c = ' ') (i : Nat) :
    getNextTokenAux l i = ⟨none, i + l.length + 1, false, false⟩ := by
  induction l generalizing i with
  | nil => simp [getNextTokenAux]
  | cons c rest ih =>
    have hc : c = ' ' := h c (by simp)
    subst hc
    rw [show getNextTokenAux (' ' :: rest) i = getNextTokenAux rest (i + 1) by
      simp [getNextTokenAux]]
    rw [ih (fun e he => h e (List.mem_cons_of_mem ' ' he)) (i + 1)]
    congr 1
    simp only [List.length_cons]
    omega

/-- A trailing run of spaces is consumed as one `undefined` token. -/
theorem getNextToken_trailing_spaces {line : List Char} {i : Nat}
    (hi : i ≤ line.length) (h : ∀ c ∈ line.drop i, c = ' ') :
    getNextToken line i = ⟨none, line.length + 1, false, false⟩ := by
  unfold getNextToken
  rw [getNextTokenAux_spaces h i]
  congr 1
  simp only [List.length_drop]
  omega

/-- C5 counterexample: scheduling the line `"a "` from character index 1 (the
trailing space) advances next-scheduled-time from 0 to one full beat (0.5 s at
120 BPM) and enqueues a highlight event, refuting the claim that runs of
spaces at the end of a line contribute zero scheduled time and no token. -/
theorem trailing_space_costs_beat :
    (mkState [['a', ' ']] 0 1 0).nextNoteTime = 0 ∧
    (scheduleNextToken (mkState [['a', ' ']] 0 1 0)).nextNoteTime = 1 / 2 ∧
    (scheduleNextToken (mkState [['a', ' ']] 0 1 0)).audioLog = [] ∧
    (scheduleNextToken (mkState [['a', ' ']] 0 1 0)).visualQueue =
      [VEvent.highlight 0 0 none false] := by
  with_unfolding_all decide

/-- C5 (amended): a space with a later character on the same line is a
zero-width separator (the scheduling step is identical to the step starting
after the space); a run of spaces reaching the end of the line is instead
consumed as a single empty token that schedules no sound but still enqueues a
highlight event and advances next-scheduled-time by one beat. -/
theorem space_zero_width_amended (s : PlayerState)
    (h0 : s.schedulingFinished = false)
    (h1 : s.currentLineIdx < s.rawLines.length)
    (ht : ¬(trimL (s.rawLines.getD s.currentLineIdx []) = [] ∨
        trimL (s.rawLines.getD s.currentLineIdx []) = ['~'] ∨
        (trimL (s.rawLines.getD s.currentLineIdx [])).head? = some '-'))
    (hsp : (s.rawLines.getD s.currentLineIdx []).get? s.charIdx = some ' ') :
    (s.charIdx + 1 < (s.rawLines.getD s.currentLineIdx []).length →
      scheduleNextToken s = scheduleNextToken { s with charIdx := s.charIdx + 1 }) ∧
    ((∀ c ∈ (s.rawLines.getD s.currentLineIdx []).drop s.charIdx, c = ' ') →
      scheduleNextToken s =
        { s with
          charIdx := (s.rawLines.getD s.currentLineIdx []).length + 1,
          visualQueue := s.visualQueue ++
            [VEvent.highlight s.nextNoteTime s.currentLineIdx none false],
          nextNoteTime := s.nextNoteTime + secondsPerBeat s.baseBPM s.tempoScale }) := by
  have hc : s.charIdx < (s.rawLines.getD s.currentLineIdx []).length :=
    (List.get?_eq_some.mp hsp).choose
  constructor
  · intro hii
    rw [scheduleNextToken_eq_token s h0 h1 ht hc,
      scheduleNextToken_eq_token { s with charIdx := s.charIdx + 1 } h0 h1 ht hii]
    simp only [getNextToken_space hsp]
  · intro hall
    rw [scheduleNextToken_eq_token s h0 h1 ht hc]
    simp only [getNextToken_trailing_spaces (Nat.le_of_lt hc) hall]
    simp [scheduleNote]

theorem space_zero_width_amended_witness :
    scheduleNextToken (mkState [['a', ' ', ' ', 'b']] 0 1 0) =
      scheduleNextToken { mkState [['a', ' ', ' ', 'b']] 0 1 0 with charIdx := 2 } :=
  (space_zero_width_amended (mkState [['a', ' ', ' ', 'b']] 0 1 0)
    (of_decide_eq_true rfl) (of_decide_eq_true rfl) (by decide)
    (of_decide_eq_true rfl)).1 (by decide)

/-- One scheduling step over the line `"aaaa"` with the default C-major logic:
it plays pitch 47 at the current next-scheduled-time, highlights the line, and
advances the time by one beat. -/
theorem step_single_note (s : PlayerState) (hl : s.rawLines = [['a', 'a', 'a', 'a']])
    (h0 : s.schedulingFinished = false) (hi : s.currentLineIdx = 0)
    (hj : s.charIdx < 4) (hsc : s.scale = cMajor) (hbg : s.bindings = []) :
    scheduleNextToken s =
      { s with
        charIdx := s.charIdx + 1,
        visualQueue := s.visualQueue ++
          [VEvent.flash s.nextNoteTime 47,
           VEvent.highlight s.nextNoteTime 0 (some ['a']) false],
        audioLog := s.audioLog ++ [(47, s.nextNoteTime)],
        nextNoteTime := s.nextNoteTime + secondsPerBeat s.baseBPM s.tempoScale } := by
  have hline : s.rawLines.getD s.currentLineIdx [] = ['a', 'a', 'a', 'a'] := by
    rw [hl, hi]; rfl
  have htok : getNextToken ['a', 'a', 'a', 'a'] s.charIdx =
      ⟨some ['a'], s.charIdx + 1, false, false⟩ := by
    interval_cases h : s.charIdx <;> decide
  rw [scheduleNextToken_eq_token s h0 (by rw [hl, hi]; decide)
    (by rw [hline]; decide) (by rw [hline]; exact hj)]
  simp only [hline, htok]
  simp [scheduleNote, splitUnits, splitUnitsF, indexOfFromAux, fireSound, hsc, hbg, hi,
    show fireResolve cMajor [] 'a' = some 47 from by decide]

/-- C6: with tempo 120 BPM and tempo scale factor 1, `secondsPerBeat` is
exactly one half second, and four consecutive single-note tokens scheduled
from next-scheduled-time `t0` are dispatched to the audio sink at
`t0`, `t0 + 0.5`, `t0 + 1.0`, `t0 + 1.5`. -/
theorem tempo120_schedule_times (t0 : ℚ) :
    secondsPerBeat 120 1 = 1 / 2 ∧
    (scheduleNextToken (scheduleNextToken (scheduleNextToken (scheduleNextToken
      (mkState [['a', 'a', 'a', 'a']] 0 0 t0))))).audioLog =
      [(47, t0), (47, t0 + 1 / 2), (47, t0 + 1), (47, t0 + 3 / 2)] := by
  have hs : secondsPerBeat 120 1 = 1 / 2 := by norm_num [secondsPerBeat]
  refine ⟨hs, ?_⟩
  have e1 : scheduleNextToken (mkState [['a', 'a', 'a', 'a']] 0 0 t0) =
      c6state (t0 + secondsPerBeat 120 1) 1
        [VEvent.flash t0 47, VEvent.highlight t0 0 (some ['a']) false]
        [(47, t0)] :=
    step_single_note _ rfl rfl rfl (by norm_num [mkState]) rfl rfl
  have e2 : scheduleNextToken (c6state (t0 + secondsPerBeat 120 1) 1
        [VEvent.flash t0 47, VEvent.highlight t0 0 (some ['a']) false]
        [(47, t0)]) =
      c6state (t0 + secondsPerBeat 120 1 + secondsPerBeat 120 1) 2
        [VEvent.flash t0 47, VEvent.highlight t0 0 (some ['a']) false,
         VEvent.flash (t0 + secondsPerBeat 120 1) 47,
         VEvent.highlight (t0 + secondsPerBeat 120 1) 0 (some ['a']) false]
        [(47, t0), (47, t0 + secondsPerBeat 120 1)] :=
    step_single_note _ rfl rfl rfl (by norm_num [c6state]) rfl rfl
  have e3 : scheduleNextToken (c6state (t0 + secondsPerBeat 120 1 + secondsPerBeat 120 1) 2
        [VEvent.flash t0 47, VEvent.highlight t0 0 (some ['a']) false,
         VEvent.flash (t0 + secondsPerBeat 120 1) 47,
         VEvent.highlight (t0 + secondsPerBeat 120 1) 0 (some ['a']) false]
        [(47, t0), (47, t0 + secondsPerBeat 120 1)]) =
      c6state (t0 + secondsPerBeat 120 1 + secondsPerBeat 120 1 + secondsPerBeat 120 1) 3
        [VEvent.flash t0 47, VEvent.highlight t0 0 (some ['a']) false,
         VEvent.flash (t0 + secondsPerBeat 120 1) 47,
         VEvent.highlight (t0 + secondsPerBeat 120 1) 0 (some ['a']) false,
         VEvent.flash (t0 + secondsPerBeat 120 1 + secondsPerBeat 120 1) 47,
         VEvent.highlight (t0 + secondsPerBeat 120 1 + secondsPerBeat 120 1) 0
           (some ['a']) false]
        [(47, t0), (47, t0 + secondsPerBeat 120 1),
         (47, t0 + secondsPerBeat 120 1 + secondsPerBeat 120 1)] :=
    step_single_note _ rfl rfl rfl (by norm_num [c6state]) rfl rfl
  have e4 := step_single_note
    (c6state (t0 + secondsPerBeat 120 1 + secondsPerBeat 120 1 + secondsPerBeat 120 1) 3
        [VEvent.flash t0 47, VEvent.highlight t0 0 (some ['a']) false,
         VEvent.flash (t0 + secondsPerBeat 120 1) 47,
         VEvent.highlight (t0 + secondsPerBeat 120 1) 0 (some ['a']) false,
         VEvent.flash (t0 + secondsPerBeat 120 1 + secondsPerBeat 120 1) 47,
         VEvent.highlight (t0 + secondsPerBeat 120 1 + secondsPerBeat 120 1) 0
           (some ['a']) false]
        [(47, t0), (47, t0 + secondsPerBeat 120 1),
         (47, t0 + secondsPerBeat 120 1 + secondsPerBeat 120 1)])
    rfl rfl rfl (by norm_num [c6state]) rfl rfl
  rw [e1, e2, e3, e4, hs]
  simp [c6state]
  refine ⟨by ring, by ring⟩

/-- Unfolding equation for the end-of-song branch of `scheduleNextToken`. -/
theorem scheduleNextToken_eq_stop (s : PlayerState) (h0 : s.schedulingFinished = false)
    (h1 : s.rawLines.length ≤ s.currentLineIdx) :
    scheduleNextToken s =
      { s with
        schedulingFinished := true,
        visualQueue := s.visualQueue ++ [VEvent.stopCmd (s.nextNoteTime + 1)] } := by
  unfold scheduleNextToken
  rw [if_neg (by simp [h0]), if_pos h1]

/-- Unfolding equation for the blank/page-break/comment branch of
`scheduleNextToken`. -/
theorem scheduleNextToken_eq_skipBranch (s : PlayerState) (h0 : s.schedulingFinished = false)
    (h1 : s.currentLineIdx < s.rawLines.length)
    (h2 : trimL (s.rawLines.getD s.currentLineIdx []) = [] ∨
      trimL (s.rawLines.getD s.currentLineIdx []) = ['~'] ∨
      (trimL (s.rawLines.getD s.currentLineIdx [])).head? = some '-') :
    scheduleNextToken s =
      { s with
        visualQueue := s.visualQueue ++ [VEvent.skip s.nextNoteTime s.currentLineIdx],
        currentLineIdx := s.currentLineIdx + 1,
        charIdx := 0 } := by
  unfold scheduleNextToken
  rw [if_neg (by simp [h0]), if_neg (by omega), if_pos h2]

/-- Unfolding equation for the end-of-line branch of `scheduleNextToken`. -/
theorem scheduleNextToken_eq_nextLine (s : PlayerState) (h0 : s.schedulingFinished = false)
    (h1 : s.currentLineIdx < s.rawLines.length)
    (h2 : ¬(trimL (s.rawLines.getD s.currentLineIdx []) = [] ∨
      trimL (s.rawLines.getD s.currentLineIdx []) = ['~'] ∨
      (trimL (s.rawLines.getD s.currentLineIdx [])).head? = some '-'))
    (h3 : (s.rawLines.getD s.currentLineIdx []).length ≤ s.charIdx) :
    scheduleNextToken s = { s with currentLineIdx := s.currentLineIdx + 1, charIdx := 0 } := by
  unfold scheduleNextToken
  rw [if_neg (by simp [h0]), if_neg (by omega), if_neg h2, if_pos h3]

/-- Tokens read from a line without an opening brace are never grace runs. -/
theorem getNextTokenAux_no_grace {l : List Char} (h : '\x7b' ∉ l) (i : Nat) :
    (getNextTokenAux l i).isGrace = false := by
  induction l generalizing i with
  | nil => rfl
  | cons c rest ih =>
    have hc : c ≠ '\x7b' := fun hx => h (hx ▸ List.mem_cons_self c rest)
    have hr : '\x7b' ∉ rest := fun hx => h (List.mem_cons_of_mem c hx)
    unfold getNextTokenAux
    by_cases h1 : c = '['
    · rw [if_pos h1]
      cases indexOfFromAux (c :: rest) ']' i <;> rfl
    · rw [if_neg h1, if_neg hc]
      by_cases h3 : c = '.'
      · rw [if_pos h3]
      · rw [if_neg h3]
        by_cases h4 : c = ' '
        · rw [if_pos h4]
          exact ih hr (i + 1)
        · rw [if_neg h4]

/-- `getNextToken` version of `getNextTokenAux_no_grace`. -/
theorem getNextToken_no_grace {line : List Char} (h : '\x7b' ∉ line) (i : Nat) :
    (getNextToken line i).isGrace = false :=
  getNextTokenAux_no_grace (fun hx => h (List.mem_of_mem_drop hx)) i

/-- `fireSound` only appends: to the audio log, and to the visual queue with
events all stamped at the given time; no other field changes. -/
theorem fireSound_shape (cs : List Char) (s : PlayerState) (t : ℚ) :
    ∃ va vq, fireSound s cs t =
      { s with
        audioLog := s.audioLog ++ va,
        visualQueue := s.visualQueue ++ vq } ∧
      ∀ e ∈ vq, VEvent.time e = t := by
  induction cs generalizing s with
  | nil => exact ⟨[], [], by simp [fireSound], by simp⟩
  | cons c rest ih =>
    cases hr : fireResolve s.scale s.bindings c with
    | none =>
      obtain ⟨va, vq, he, htt⟩ := ih s
      refine ⟨va, vq, ?_, htt⟩
      rw [← he]
      simp only [fireSound, List.foldl_cons, hr]
    | some m =>
      obtain ⟨va, vq, he, htt⟩ := ih
        { s with
          audioLog := s.audioLog ++ [(m, t)],
          visualQueue := s.visualQueue ++ [VEvent.flash t m] }
      refine ⟨(m, t) :: va, VEvent.flash t m :: vq, ?_, ?_⟩
      · rw [show fireSound s (c :: rest) t = fireSound
          { s with
            audioLog := s.audioLog ++ [(m, t)],
            visualQueue := s.visualQueue ++ [VEvent.flash t m] } rest t by
            simp only [fireSound, List.foldl_cons, hr]]
        rw [he]
        simp
      · intro e he'
        rcases List.mem_cons.mp he' with rfl | he2
        · rfl
        · exact htt e he2

/-- Folding `fireSound` at one fixed time over a unit list only appends, all
visual events stamped at that time. -/
theorem fireFold_shape (us : List (List Char)) (s : PlayerState) (t : ℚ) :
    ∃ va vq, us.foldl (fun st u => fireSound st u t) s =
      { s with
        audioLog := s.audioLog ++ va,
        visualQueue := s.visualQueue ++ vq } ∧
      ∀ e ∈ vq, VEvent.time e = t := by
  induction us generalizing s with
  | nil => exact ⟨[], [], by simp, by simp⟩
  | cons u us ih =>
    obtain ⟨va1, vq1, he1, ht1⟩ := fireSound_shape u s t
    obtain ⟨va2, vq2, he2, ht2⟩ := ih (fireSound s u t)
    refine ⟨va1 ++ va2, vq1 ++ vq2, ?_, ?_⟩
    · rw [List.foldl_cons, he2, he1]
      simp
    · intro e he'
      rcases List.mem_append.mp he' with he' | he'
      · exact ht1 e he'
      · exact ht2 e he'

/-- A non-grace `scheduleNote` only appends audio events and visual events
stamped at the token start time. -/
theorem scheduleNote_shape (s : PlayerState) (text : Option (List Char)) (t d : ℚ) :
    ∃ va vq, scheduleNote s text t d false =
      { s with
        audioLog := s.audioLog ++ va,
        visualQueue := s.visualQueue ++ vq } ∧
      ∀ e ∈ vq, VEvent.time e = t := by
  cases text with
  | none => exact ⟨[], [], by simp [scheduleNote], by simp⟩
  | some tx =>
    by_cases hx : tx = [] ∨ tx = ['.']
    · exact ⟨[], [], by simp [scheduleNote, hx], by simp⟩
    · obtain ⟨va, vq, he, htt⟩ := fireFold_shape (splitUnits tx) s t
      refine ⟨va, vq, ?_, htt⟩
      rw [← he]
      simp [scheduleNote, hx]

/-- A list of events all stamped at one time is chained by time order. -/
theorem chain_of_const {l : List VEvent} {t : ℚ} (h : ∀ e ∈ l, VEvent.time e = t) :
    List.Chain' (fun a b => VEvent.time a ≤ VEvent.time b) l := by
  induction l with
  | nil => simp
  | cons a l2 ih =>
    cases l2 with
    | nil => simp
    | cons b l3 =>
      rw [List.chain'_cons]
      refine ⟨?_, ih (fun e he => h e (List.mem_cons_of_mem a he))⟩
      rw [h a (by simp), h b (by simp)]

/-- Appending events all stamped at a time at least as late as every queued
event preserves the time-ordering chain. -/
theorem chain_append_const (q new : List VEvent) (t : ℚ)
    (hchain : List.Chain' (fun a b => VEvent.time a ≤ VEvent.time b) q)
    (hle : ∀ e ∈ q, VEvent.time e ≤ t) (hnew : ∀ e ∈ new, VEvent.time e = t) :
    List.Chain' (fun a b => VEvent.time a ≤ VEvent.time b) (q ++ new) := by
  rw [List.chain'_append]
  refine ⟨hchain, chain_of_const hnew, ?_⟩
  intro x hx y hy
  rw [hnew y (List.mem_of_mem_head? hy)]
  exact hle x (List.mem_of_mem_getLast? hx)

/-- C9 counterexample: one scheduling step over the grace-run line
`"\x7bab\x7d"` leaves the visual queue holding a flash at time 0, a flash at
time 1/4, and then the line highlight back at time 0 — not ordered by
non-decreasing scheduled time, because `scheduleNextToken` appends the
highlight after the later-stamped grace flashes. -/
theorem grace_run_breaks_queue_order :
    (scheduleNextToken (mkState [['\x7b', 'a', 'b', '\x7d']] 0 0 0)).visualQueue =
      [VEvent.flash 0 47, VEvent.flash (1 / 4) 69,
       VEvent.highlight 0 0 (some ['a', 'b']) false] ∧
    ¬ List.Chain' (fun a b => VEvent.time a ≤ VEvent.time b)
      (scheduleNextToken (mkState [['\x7b', 'a', 'b', '\x7d']] 0 0 0)).visualQueue := by
  have h : (scheduleNextToken (mkState [['\x7b', 'a', 'b', '\x7d']] 0 0 0)).visualQueue =
      [VEvent.flash 0 47, VEvent.flash (1 / 4) 69,
       VEvent.highlight 0 0 (some ['a', 'b']) false] := by
    with_unfolding_all decide
  refine ⟨h, ?_⟩
  rw [h]
  intro hch
  rw [List.chain'_cons, List.chain'_cons] at hch
  have h2 := hch.2.1
  simp only [VEvent.time] at h2
  norm_num at h2

/-- C9 (amended): as long as no sheet line contains a grace-run opening brace
and the tempo quantities are positive, one scheduling step preserves the
queue invariant: the visual queue is ordered by non-decreasing time, and
while scheduling is unfinished every queued event is stamped no later than
next-scheduled-time.  (A grace run with at least two units breaks the
invariant, as `grace_run_breaks_queue_order` shows.) -/
theorem visualQueue_order_invariant (s : PlayerState)
    (hb : 0 < s.baseBPM) (hts : 0 < s.tempoScale)
    (hg : ∀ l ∈ s.rawLines, '\x7b' ∉ l)
    (hchain : List.Chain' (fun a b => VEvent.time a ≤ VEvent.time b) s.visualQueue)
    (hbound : s.schedulingFinished = false →
      ∀ e ∈ s.visualQueue, VEvent.time e ≤ s.nextNoteTime) :
    List.Chain' (fun a b => VEvent.time a ≤ VEvent.time b)
      (scheduleNextToken s).visualQueue ∧
    ((scheduleNextToken s).schedulingFinished = false →
      ∀ e ∈ (scheduleNextToken s).visualQueue,
        VEvent.time e ≤ (scheduleNextToken s).nextNoteTime) := by
  by_cases hfin : s.schedulingFinished = true
  · rw [show scheduleNextToken s = s from by unfold scheduleNextToken; rw [if_pos hfin]]
    exact ⟨hchain, fun hf => absurd hfin (by rw [hf]; simp)⟩
  have h0 : s.schedulingFinished = false := by
    revert hfin; cases s.schedulingFinished <;> simp
  have hB : ∀ e ∈ s.visualQueue, VEvent.time e ≤ s.nextNoteTime := hbound h0
  by_cases hlen : s.rawLines.length ≤ s.currentLineIdx
  · rw [scheduleNextToken_eq_stop s h0 hlen]
    refine ⟨?_, fun hf => by simp at hf⟩
    refine chain_append_const _ _ (s.nextNoteTime + 1) hchain ?_ ?_
    · intro e he; linarith [hB e he]
    · intro e he
      rcases List.mem_cons.mp he with rfl | h
      · rfl
      · cases h
  have h1 : s.currentLineIdx < s.rawLines.length := by omega
  by_cases htrim : trimL (s.rawLines.getD s.currentLineIdx []) = [] ∨
      trimL (s.rawLines.getD s.currentLineIdx []) = ['~'] ∨
      (trimL (s.rawLines.getD s.currentLineIdx [])).head? = some '-'
  · rw [scheduleNextToken_eq_skipBranch s h0 h1 htrim]
    constructor
    · refine chain_append_const _ _ s.nextNoteTime hchain hB ?_
      intro e he
      rcases List.mem_cons.mp he with rfl | h
      · rfl
      · cases h
    · intro _ e he
      rcases List.mem_append.mp he with h | h
      · exact hB e h
      · rcases List.mem_cons.mp h with rfl | h
        · exact le_refl _
        · cases h
  by_cases heol : (s.rawLines.getD s.currentLineIdx []).length ≤ s.charIdx
  · rw [scheduleNextToken_eq_nextLine s h0 h1 htrim heol]
    exact ⟨hchain, fun _ => hB⟩
  have hc : s.charIdx < (s.rawLines.getD s.currentLineIdx []).length := by omega
  have hmem : s.rawLines.getD s.currentLineIdx [] ∈ s.rawLines := by
    rw [List.getD_eq_getElem s.rawLines [] h1]
    exact List.getElem_mem h1
  have hgr : (getNextToken (s.rawLines.getD s.currentLineIdx []) s.charIdx).isGrace = false :=
    getNextToken_no_grace (hg _ hmem) s.charIdx
  have hspb : 0 ≤ secondsPerBeat s.baseBPM s.tempoScale :=
    le_of_lt (div_pos (div_pos (by norm_num) hb) hts)
  by_cases hrest : (getNextToken (s.rawLines.getD s.currentLineIdx []) s.charIdx).isRest = true
  · have hfinal : scheduleNextToken s =
        { s with
          charIdx := (getNextToken (s.rawLines.getD s.currentLineIdx []) s.charIdx).nextIndex,
          visualQueue := s.visualQueue ++
            [VEvent.highlight s.nextNoteTime s.currentLineIdx
              (getNextToken (s.rawLines.getD s.currentLineIdx []) s.charIdx).text
              (getNextToken (s.rawLines.getD s.currentLineIdx []) s.charIdx).isRest],
          nextNoteTime := s.nextNoteTime + secondsPerBeat s.baseBPM s.tempoScale } := by
      rw [scheduleNextToken_eq_token s h0 h1 htrim hc]
      simp only [hrest, if_true]
    rw [hfinal]
    constructor
    · refine chain_append_const _ _ s.nextNoteTime hchain hB ?_
      intro e he
      rcases List.mem_cons.mp he with rfl | h
      · rfl
      · cases h
    · intro _ e he
      rcases List.mem_append.mp he with h | h
      · exact le_trans (hB e h) (le_add_of_nonneg_right hspb)
      · rcases List.mem_cons.mp h with rfl | h
        · exact le_add_of_nonneg_right hspb
        · cases h
  · obtain ⟨va, vq, he2, htq⟩ := scheduleNote_shape
      { s with charIdx := (getNextToken (s.rawLines.getD s.currentLineIdx []) s.charIdx).nextIndex }
      (getNextToken (s.rawLines.getD s.currentLineIdx []) s.charIdx).text
      s.nextNoteTime (secondsPerBeat s.baseBPM s.tempoScale)
    have hfinal : scheduleNextToken s =
        { s with
          charIdx := (getNextToken (s.rawLines.getD s.currentLineIdx []) s.charIdx).nextIndex,
          audioLog := s.audioLog ++ va,
          visualQueue := (s.visualQueue ++ vq) ++
            [VEvent.highlight s.nextNoteTime s.currentLineIdx
              (getNextToken (s.rawLines.getD s.currentLineIdx []) s.charIdx).text
              (getNextToken (s.rawLines.getD s.currentLineIdx []) s.charIdx).isRest],
          nextNoteTime := s.nextNoteTime + secondsPerBeat s.baseBPM s.tempoScale } := by
      rw [scheduleNextToken_eq_token s h0 h1 htrim hc]
      simp only [hrest, if_false, hgr, he2]
      rfl
    rw [hfinal]
    constructor
    · refine chain_append_const (s.visualQueue ++ vq) _ s.nextNoteTime ?_ ?_ ?_
      · refine chain_append_const _ _ s.nextNoteTime hchain hB ?_
        intro e he; exact htq e he
      · intro e he
        rcases List.mem_append.mp he with h | h
        · exact hB e h
        · exact le_of_eq (htq e h)
      · intro e he
        rcases List.mem_cons.mp he with rfl | h
        · rfl
        · cases h
    · intro _ e he
      rcases List.mem_append.mp he with h | h
      · rcases List.mem_append.mp h with h2 | h2
        · exact le_trans (hB e h2) (le_add_of_nonneg_right hspb)
        · exact le_trans (le_of_eq (htq e h2)) (le_add_of_nonneg_right hspb)
      · rcases List.mem_cons.mp h with rfl | h2
        · exact le_add_of_nonneg_right hspb
        · cases h2

theorem visualQueue_order_invariant_witness :
    List.Chain' (fun a b => VEvent.time a ≤ VEvent.time b)
      (scheduleNextToken (mkState [['a', 'b']] 0 0 0)).visualQueue ∧
    ((scheduleNextToken (mkState [['a', 'b']] 0 0 0)).schedulingFinished = false →
      ∀ e ∈ (scheduleNextToken (mkState [['a', 'b']] 0 0 0)).visualQueue,
        VEvent.time e ≤ (scheduleNextToken (mkState [['a', 'b']] 0 0 0)).nextNoteTime) :=
  visualQueue_order_invariant (mkState [['a', 'b']] 0 0 0)
    (by norm_num [mkState]) (by norm_num [mkState]) (by decide)
    (by simp [mkState]) (fun _ e he => absurd he (List.not_mem_nil e))

/-- A successful `findIdx?` exhibits a member satisfying the predicate. -/
theorem findIdx?_mem {p : Char → Bool} :
    ∀ {l : List Char} {i : Nat}, l.findIdx? p = some i → ∃ x ∈ l, p x := by
  intro l
  induction l with
  | nil => intro i h; simp [List.findIdx?] at h
  | cons a l ih =>
    intro i h
    rw [List.findIdx?_cons] at h
    by_cases hp : p a
    · exact ⟨a, by simp, hp⟩
    · simp [hp] at h
      obtain ⟨j, hj, -⟩ := h
      obtain ⟨x, hx, hpx⟩ := ih hj
      exact ⟨x, by simp [hx], hpx⟩

/-- A character found in the keyboard-row table is one of its members. -/
theorem keyIndexOf_mem {c : Char} {idx : Nat} (h : keyIndexOf c = some idx) : c ∈ keyMap := by
  obtain ⟨x, hx, hpx⟩ := findIdx?_mem h
  rwa [show x = c from by simpa using hpx] at hx

/-- Plainness facts about the 36 keyboard-row characters. -/
theorem keyMap_plain : ∀ c ∈ keyMap, specialShiftToBase c = none ∧ shiftMapBase c = none ∧
    c.toLower = c ∧ isUpperCh c = false ∧ effChar c = c := by decide

/-- With no custom bindings, `getMidi` is the core resolution with the shift
state augmented by the character's own shiftedness. -/
theorem getMidi_empty (sc : ScaleDef) (k : Char) (σ : Bool) :
    getMidi sc [] k σ = getMidiCore sc k (σ || (specialShiftToBase k).isSome) := rfl

/-- `translateLineKeysToNotes` resolution of a plain character. -/
theorem translateResolve_plain {sc : ScaleDef} {B : List (Char × Binding)} {c : Char}
    (h1 : isUpperCh c = false) (h2 : shiftMapBase c = none) :
    translateResolve sc B c = getMidi sc B c false := by
  simp [translateResolve, h1, h2]

/-- `translateLineKeysToNotes` resolution of an uppercase letter. -/
theorem translateResolve_upper {sc : ScaleDef} {B : List (Char × Binding)} {c : Char}
    (h1 : isUpperCh c = true) :
    translateResolve sc B c = getMidi sc B c.toLower true := by
  simp [translateResolve, h1]

/-- `translateLineKeysToNotes` resolution of a shift symbol. -/
theorem translateResolve_symbol {sc : ScaleDef} {B : List (Char × Binding)} {c b : Char}
    (h1 : isUpperCh c = false) (h2 : shiftMapBase c = some b) :
    translateResolve sc B c = getMidi sc B b true := by
  simp [translateResolve, h1, h2]

/-- A successful `specialShiftToBase` lookup identifies one of the seven
shifted punctuation characters. -/
theorem special_cases {c v : Char} (h : specialShiftToBase c = some v) :
    c = '\x7b' ∨ c = '\x7d' ∨ c = ':' ∨ c = Char.ofNat 34 ∨ c = '<' ∨ c = '>' ∨ c = '?' := by
  unfold specialShiftToBase at h
  split_ifs at h with h1 h2 h3 h4 h5 h6 h7 <;> tauto

/-- A resolving core call factors through its effective keyboard-row
character, which is one of the table members. -/
theorem getMidiCore_producer {sc : ScaleDef} {k : Char} {σ : Bool} {m : Int}
    (h : getMidiCore sc k σ = some m) :
    effChar k ∈ keyMap ∧ getMidiCore sc (effChar k) σ = some m := by
  have hmem : effChar k ∈ keyMap := by
    unfold getMidiCore at h
    cases hf : keyIndexOf (effChar k) with
    | none => rw [hf] at h; cases h
    | some idx => exact keyIndexOf_mem hf
  have heff : effChar (effChar k) = effChar k :=
    (keyMap_plain (effChar k) hmem).2.2.2.2
  refine ⟨hmem, ?_⟩
  unfold getMidiCore at h ⊢
  rwa [heff]

/-- A character missing from the keyboard-row table never resolves. -/
theorem getMidiCore_none {c : Char} (h : keyIndexOf (effChar c) = none)
    (sc : ScaleDef) (σ : Bool) : getMidiCore sc c σ = none := by
  unfold getMidiCore
  rw [h]

/-- Every pitch produced by the translator's per-character resolution (empty
custom bindings) is produced by some keyboard-row key, unshifted or shifted. -/
theorem translateResolve_producer {sc : ScaleDef} {c : Char} {m : Int}
    (h : translateResolve sc [] c = some m) :
    ∃ χ ∈ keyMap, ∃ σ : Bool, getMidi sc [] χ σ = some m := by
  by_cases hu : isUpperCh c = true
  · rw [translateResolve_upper hu] at h
    rw [getMidi_empty, Bool.true_or] at h
    obtain ⟨hmem, hcore⟩ := getMidiCore_producer h
    refine ⟨effChar c.toLower, hmem, true, ?_⟩
    rw [getMidi_empty, Bool.true_or]
    exact hcore
  · have hu' : isUpperCh c = false := by revert hu; cases isUpperCh c <;> simp
    cases hs : shiftMapBase c with
    | some b =>
      rw [translateResolve_symbol hu' hs] at h
      rw [getMidi_empty, Bool.true_or] at h
      obtain ⟨hmem, hcore⟩ := getMidiCore_producer h
      refine ⟨effChar b, hmem, true, ?_⟩
      rw [getMidi_empty, Bool.true_or]
      exact hcore
    | none =>
      rw [translateResolve_plain hu' hs] at h
      rw [getMidi_empty, Bool.false_or] at h
      cases hsp : specialShiftToBase c with
      | some v =>
        exfalso
        rw [hsp] at h
        simp only [Option.isSome_some] at h
        rcases special_cases hsp with rfl | rfl | rfl | rfl | rfl | rfl | rfl <;>
          (rw [getMidiCore_none (by decide) sc true] at h; cases h)
      | none =>
        rw [hsp] at h
        simp only [Option.isSome_none] at h
        obtain ⟨hmem, hcore⟩ := getMidiCore_producer h
        refine ⟨effChar c, hmem, false, ?_⟩
        rw [getMidi_empty]
        rw [(keyMap_plain (effChar c) hmem).1]
        exact hcore

/-- The shift symbol found for a digit maps back to that digit, and is not an
uppercase letter. -/
theorem shiftKeyFor_inv {c sym : Char} (h : shiftKeyFor c = some sym) :
    shiftMapBase sym = some c ∧ isUpperCh sym = false := by
  unfold shiftKeyFor at h
  cases hf : shiftMapPairs.find? (fun p => p.2 == c) with
  | none => rw [hf] at h; cases h
  | some q =>
    rw [hf] at h
    have hq : q.2 = c := by simpa using List.find?_some hf
    have hs : q.1 = sym := by simpa using h
    have hm := List.mem_of_find?_eq_some hf
    subst hq
    subst hs
    fin_cases hm <;> decide

/-- Keyboard-row letters (the keys without a shift symbol) round trip through
`toUpperCase`/`toLowerCase` and their uppercase form is in the regex class. -/
theorem keyMap_upper_facts : ∀ c ∈ keyMap, shiftKeyFor c = none →
    isUpperCh c.toUpper = true ∧ (c.toUpper).toLower = c ∧
    shiftMapBase c.toUpper = none := by decide

/-- Whenever some keyboard-row key produces pitch `m` (empty custom bindings),
`findKeyForMidi` returns a key combination, and the translator's resolution
of that combination reproduces exactly `m`. -/
theorem findKeyForMidi_resolves {sc : ScaleDef} {m : Int}
    (h : ∃ χ ∈ keyMap, ∃ σ : Bool, getMidi sc [] χ σ = some m) :
    ∃ k, findKeyForMidi sc [] m = some k ∧ translateResolve sc [] k = some m := by
  obtain ⟨χ, hχ, σ, hres⟩ := h
  cases hf : keyMap.find? (fun c => getMidi sc [] c false == some m) with
  | some k =>
    refine ⟨k, by unfold findKeyForMidi; rw [hf], ?_⟩
    have hkeq : getMidi sc [] k false = some m := by simpa using List.find?_some hf
    have hkm := List.mem_of_find?_eq_some hf
    rw [translateResolve_plain (keyMap_plain k hkm).2.2.2.1 (keyMap_plain k hkm).2.1]
    exact hkeq
  | none =>
    have hσ : σ = true := by
      cases hσ : σ
      · exfalso
        have := List.find?_eq_none.mp hf χ hχ
        rw [hσ] at hres
        simp [hres] at this
      · rfl
    subst hσ
    have h2 : (keyMap.find? (fun c => getMidi sc [] c true == some m)).isSome :=
      List.find?_isSome.mpr ⟨χ, hχ, by simp [hres]⟩
    obtain ⟨k2, hk2⟩ := Option.isSome_iff_exists.mp h2
    have hk2eq : getMidi sc [] k2 true = some m := by simpa using List.find?_some hk2
    have hk2mem := List.mem_of_find?_eq_some hk2
    cases hs : shiftKeyFor k2 with
    | some sym =>
      refine ⟨sym, by unfold findKeyForMidi; simp only [hf, hk2, hs], ?_⟩
      obtain ⟨hsb, hsu⟩ := shiftKeyFor_inv hs
      rw [translateResolve_symbol hsu hsb]
      exact hk2eq
    | none =>
      refine ⟨k2.toUpper, by unfold findKeyForMidi; simp only [hf, hk2, hs], ?_⟩
      obtain ⟨hup, hlo, -⟩ := keyMap_upper_facts k2 hk2mem hs
      rw [translateResolve_upper hup, hlo]
      exact hk2eq

/-- Decimal digit characters satisfy the digit class. -/
theorem digitChar_digit (d : Nat) : isDigitB (digitChar d) = true := by
  unfold digitChar
  split <;> decide

/-- `parseInt` digit value of a rendered digit. -/
theorem digitChar_val {d : Nat} (h : d < 10) : (digitChar d).toNat - 48 = d := by
  interval_cases d <;> decide

/-- With enough fuel, a rendered natural number is a non-empty run of digit
characters whose `parseInt` accumulation gives the number back. -/
theorem natDigitsF_facts : ∀ f n, n ≤ f →
    (∀ c ∈ natDigitsF f n, isDigitB c = true) ∧ natDigitsF f n ≠ [] ∧
      foldDigits (natDigitsF f n) = n := by
  intro f
  induction f with
  | zero =>
    intro n hn
    interval_cases n
    refine ⟨?_, by simp [natDigitsF], by decide⟩
    intro c hc
    simp [natDigitsF] at hc
    subst hc
    decide
  | succ f ih =>
    intro n hn
    by_cases h10 : n < 10
    · unfold natDigitsF
      rw [if_pos h10]
      refine ⟨?_, by simp, ?_⟩
      · intro c hc
        simp at hc
        subst hc
        exact digitChar_digit n
      · show 10 * 0 + ((digitChar n).toNat - 48) = n
        rw [digitChar_val h10]
        omega
    · unfold natDigitsF
      rw [if_neg h10]
      have hd : n / 10 ≤ f := by omega
      obtain ⟨ha, hb, hcn⟩ := ih (n / 10) hd
      refine ⟨?_, by simp, ?_⟩
      · intro c hcm
        rcases List.mem_append.mp hcm with hx | hx
        · exact ha c hx
        · simp at hx
          subst hx
          exact digitChar_digit (n % 10)
      · unfold foldDigits at hcn ⊢
        rw [List.foldl_append, hcn]
        simp only [List.foldl_cons, List.foldl_nil]
        rw [digitChar_val (Nat.mod_lt _ (by norm_num))]
        omega

/-- `natDigits` facts at the canonical fuel. -/
theorem natDigits_facts (n : Nat) :
    (∀ c ∈ natDigits n, isDigitB c = true) ∧ natDigits n ≠ [] ∧
      foldDigits (natDigits n) = n :=
  natDigitsF_facts n n (le_refl n)

/-- The two shapes of a rendered integer. -/
theorem intToChars_spec (oct : Int) :
    (oct < 0 ∧ intToChars oct = '-' :: natDigits oct.natAbs) ∨
    (0 ≤ oct ∧ intToChars oct = natDigits oct.toNat) := by
  unfold intToChars
  split_ifs with h
  · exact Or.inl ⟨h, rfl⟩
  · exact Or.inr ⟨by omega, rfl⟩

/-- The maximal digit run of `digits ++ '>' :: t` is exactly `digits`. -/
theorem takeWhile_digits {ds : List Char} (h : ∀ c ∈ ds, isDigitB c = true) (t : List Char) :
    (ds ++ '>' :: t).takeWhile isDigitB = ds := by
  induction ds with
  | nil => simp [List.takeWhile_cons, show isDigitB '>' = false from rfl]
  | cons d ds ih =>
    rw [List.cons_append, List.takeWhile_cons, h d (by simp)]
    simp only [ite_true]
    rw [ih fun e he => h e (List.mem_cons_of_mem d he)]

/-- What remains after the maximal digit run of `digits ++ '>' :: t`. -/
theorem dropWhile_digits {ds : List Char} (h : ∀ c ∈ ds, isDigitB c = true) (t : List Char) :
    (ds ++ '>' :: t).dropWhile isDigitB = '>' :: t := by
  induction ds with
  | nil => simp [List.dropWhile_cons, show isDigitB '>' = false from rfl]
  | cons d ds ih =>
    rw [List.cons_append, List.dropWhile_cons, h d (by simp)]
    simp only [ite_true]
    exact ih fun e he => h e (List.mem_cons_of_mem d he)

/-- A digit character is not a closing delimiter, sign or sharp. -/
theorem digit_ne {c : Char} (h : isDigitB c = true) : c ≠ '>' ∧ c ≠ '-' ∧ c ≠ '#' := by
  refine ⟨?_, ?_, ?_⟩ <;> intro he <;> rw [he] at h <;> cases h

/-- `tryDigits` consumes exactly a non-empty digit run followed by `>`. -/
theorem tryDigits_spec (nm : List Char) (neg : Bool) {ds : List Char}
    (hne : ds ≠ []) (hdig : ∀ c ∈ ds, isDigitB c = true) (t : List Char) :
    tryDigits nm neg (ds ++ '>' :: t) =
      some (nm ++ (if neg then ['-'] else []) ++ ds ++ ['>'],
        nm, (if neg then -1 else 1) * (foldDigits ds : Int)) := by
  unfold tryDigits
  rw [takeWhile_digits hdig t, dropWhile_digits hdig t]
  rw [if_neg (by simp [hne])]
  rfl

/-- Stage-2/3 round trip: after the name capture, a rendered octave followed
by `>` parses back to that octave, consuming exactly the rendered characters. -/
theorem tryAfterName_digits {nm : List Char} (oct : Int) (t : List Char) :
    tryAfterName nm (intToChars oct ++ '>' :: t) =
      some (nm ++ intToChars oct ++ ['>'], nm, oct) := by
  rcases intToChars_spec oct with ⟨hneg, hic⟩ | ⟨hpos, hic⟩
  · obtain ⟨hdig, hne, hfold⟩ := natDigits_facts oct.natAbs
    rw [hic, List.cons_append]
    show tryDigits nm true (natDigits oct.natAbs ++ '>' :: t) = _
    rw [tryDigits_spec nm true hne hdig t]
    simp only [Option.some.injEq, Prod.mk.injEq, ite_true]
    refine ⟨by simp [List.append_assoc], trivial, ?_⟩
    rw [hfold]
    omega
  · obtain ⟨hdig, hne, hfold⟩ := natDigits_facts oct.toNat
    rw [hic]
    cases hnd : natDigits oct.toNat with
    | nil => exact absurd hnd hne
    | cons d ds =>
      have hd : isDigitB d = true := hdig d (by rw [hnd]; simp)
      rw [List.cons_append]
      show (if d = '-' then tryDigits nm true (ds ++ '>' :: t)
        else tryDigits nm false (d :: (ds ++ '>' :: t))) = _
      rw [if_neg (digit_ne hd).2.1]
      rw [show d :: (ds ++ '>' :: t) = (d :: ds) ++ '>' :: t from rfl]
      rw [tryDigits_spec nm false (by simp) (by rw [← hnd]; exact hdig) t]
      simp only [Option.some.injEq, Prod.mk.injEq, ite_false]
      refine ⟨by simp, trivial, ?_⟩
      rw [← hnd, hfold, if_neg Bool.false_ne_true]
      omega

/-- Regex attempt on a plain-name readable token body. -/
theorem tryMatch_plain {x : Char} (hx : noteLetters.contains x = true) (oct : Int)
    (rest : List Char) :
    tryMatch (x :: (intToChars oct ++ '>' :: rest)) =
      some ([x] ++ intToChars oct ++ ['>'], [x], oct) := by
  have key : ∃ d tl, intToChars oct ++ '>' :: rest = d :: tl ∧ d ≠ '#' := by
    rcases intToChars_spec oct with ⟨hneg, hic⟩ | ⟨hpos, hic⟩
    · exact ⟨'-', _, by rw [hic, List.cons_append], by decide⟩
    · obtain ⟨hdig, hne, -⟩ := natDigits_facts oct.toNat
      cases hnd : natDigits oct.toNat with
      | nil => exact absurd hnd hne
      | cons d ds =>
        refine ⟨d, _, by rw [hic, hnd, List.cons_append], ?_⟩
        exact (digit_ne (hdig d (by rw [hnd]; simp))).2.2
  obtain ⟨d, tl, heq, hd⟩ := key
  show (if noteLetters.contains x = true then trySharp x (intToChars oct ++ '>' :: rest)
    else none) = _
  rw [if_pos hx, heq]
  show (if d = '#' then tryAfterName [x, '#'] tl else tryAfterName [x] (d :: tl)) = _
  rw [if_neg hd, ← heq]
  exact tryAfterName_digits oct rest

/-- Regex attempt on a sharp-name readable token body. -/
theorem tryMatch_sharp {x : Char} (hx : noteLetters.contains x = true) (oct : Int)
    (rest : List Char) :
    tryMatch (x :: '#' :: (intToChars oct ++ '>' :: rest)) =
      some ([x, '#'] ++ intToChars oct ++ ['>'], [x, '#'], oct) := by
  show (if noteLetters.contains x = true then
    trySharp x ('#' :: (intToChars oct ++ '>' :: rest)) else none) = _
  rw [if_pos hx]
  show tryAfterName [x, '#'] (intToChars oct ++ '>' :: rest) = _
  exact tryAfterName_digits oct rest

/-- The lower-cased chromatic name of any pitch is a single note letter or a
note letter followed by a sharp. -/
theorem midiName_cases (m : Int) :
    (∃ x, noteLetters.contains x = true ∧
       (midiToName m).toList.map Char.toLower = [x]) ∨
    (∃ x, noteLetters.contains x = true ∧
       (midiToName m).toList.map Char.toLower = [x, '#']) := by
  have h0 : 0 ≤ m % 12 := Int.emod_nonneg m (by decide)
  have h1 : m % 12 < 12 := Int.emod_lt_of_pos m (by decide)
  unfold midiToName
  set r := (m % 12).toNat with hrd
  have hr : r < 12 := by omega
  interval_cases r
  · exact .inl ⟨'c', by decide, by decide⟩
  · exact .inr ⟨'c', by decide, by decide⟩
  · exact .inl ⟨'d', by decide, by decide⟩
  · exact .inr ⟨'d', by decide, by decide⟩
  · exact .inl ⟨'e', by decide, by decide⟩
  · exact .inl ⟨'f', by decide, by decide⟩
  · exact .inr ⟨'f', by decide, by decide⟩
  · exact .inl ⟨'g', by decide, by decide⟩
  · exact .inr ⟨'g', by decide, by decide⟩
  · exact .inl ⟨'a', by decide, by decide⟩
  · exact .inr ⟨'a', by decide, by decide⟩
  · exact .inl ⟨'b', by decide, by decide⟩

/-- The regex matches a generated token body at the start of any remainder,
capturing the lower-cased name and the rendered octave. -/
theorem tryMatch_body (m : Int) (rest : List Char) :
    tryMatch (bodyOf m ++ rest) =
      some (bodyOf m, (midiToName m).toList.map Char.toLower, m / 12 - 1) := by
  rcases midiName_cases m with ⟨x, hx, hnm⟩ | ⟨x, hx, hnm⟩
  · unfold bodyOf
    rw [hnm]
    simp only [List.cons_append, List.nil_append, List.append_assoc,
      List.singleton_append]
    rw [tryMatch_plain hx (m / 12 - 1) rest]
    simp [List.append_assoc]
  · unfold bodyOf
    rw [hnm]
    simp only [List.cons_append, List.nil_append, List.append_assoc,
      List.singleton_append]
    rw [tryMatch_sharp hx (m / 12 - 1) rest]
    simp [List.append_assoc]

/-- Reading a generated token body back through `getMidiFromNoteName` at the
rendered octave recovers the original pitch. -/
theorem getMidiFromNoteName_inv (m : Int) :
    getMidiFromNoteName ((midiToName m).toList.map Char.toLower) (m / 12 - 1) =
      some m := by
  have h0 : 0 ≤ m % 12 := Int.emod_nonneg m (by decide)
  have h1 : m % 12 < 12 := Int.emod_lt_of_pos m (by decide)
  unfold midiToName
  set r := (m % 12).toNat with hrd
  have hr : r < 12 := by omega
  interval_cases r <;> exact congrArg some (by beta_reduce; omega)

/-- Syntax characters are not note letters and not the token opener. -/
theorem syntax_facts : ∀ c ∈ syntaxChars,
    noteLetters.contains c = false ∧ c ≠ '<' := by decide

/-- Membership in the keyboard row makes its index lookup succeed. -/
theorem keyIndexOf_isSome {c : Char} (h : c ∈ keyMap) : (keyIndexOf c).isSome := by
  rw [keyIndexOf, List.findIdx?_isSome]
  exact List.any_eq_true.mpr ⟨c, h, by simp⟩

/-- The core resolution succeeds on every keyboard-row character, under every
scale and either shift state. -/
theorem getMidiCore_keyMember_isSome (sc : ScaleDef) {c : Char} (h : c ∈ keyMap)
    (σ : Bool) : (getMidiCore sc c σ).isSome := by
  have heff : effChar c = c := (keyMap_plain c h).2.2.2.2
  have hidx := keyIndexOf_isSome h
  cases hk : keyIndexOf c with
  | none => rw [hk] at hidx; cases hidx
  | some idx =>
    unfold getMidiCore
    rw [heff, hk]
    dsimp only
    split_ifs <;> simp

/-- The translator resolves every keyboard-row character (empty bindings). -/
theorem translateResolve_keyMember_isSome (sc : ScaleDef) {c : Char}
    (hmem : c ∈ keyMap) : (translateResolve sc [] c).isSome := by
  obtain ⟨hs, hb, -, hu, -⟩ := keyMap_plain c hmem
  rw [translateResolve_plain hu hb, getMidi_empty, hs]
  exact getMidiCore_keyMember_isSome sc hmem _

/-- The translator resolves every uppercase letter whose lowercase form is a
keyboard-row character (empty bindings). -/
theorem translateResolve_upper_isSome (sc : ScaleDef) {c : Char}
    (hu : isUpperCh c = true) (hmem : c.toLower ∈ keyMap) :
    (translateResolve sc [] c).isSome := by
  obtain ⟨hs, -, -, -, -⟩ := keyMap_plain c.toLower hmem
  rw [translateResolve_upper hu, getMidi_empty, hs]
  exact getMidiCore_keyMember_isSome sc hmem _

/-- Every character the token regex accepts as a note letter is resolvable by
the translator, under every scale. -/
theorem noteLetter_resolvable (sc : ScaleDef) :
    ∀ x ∈ noteLetters, (translateResolve sc [] x).isSome := by
  intro x hx
  fin_cases hx <;>
    first
      | exact translateResolve_keyMember_isSome sc (by decide)
      | exact translateResolve_upper_isSome sc (by decide) (by decide)

/-- No fresh regex attempt succeeds at a piece boundary of a translated line:
the first character there is never a note letter. -/
theorem tryMatch_flat_none (sc : ScaleDef) (S : List Char) :
    tryMatch (S.flatMap (pieceOf sc [])) = none := by
  cases S with
  | nil => rfl
  | cons c S =>
    rw [List.flatMap_cons]
    have key : ∃ d tl, pieceOf sc [] c ++ S.flatMap (pieceOf sc []) = d :: tl ∧
        noteLetters.contains d = false := by
      unfold pieceOf
      by_cases hsy : syntaxChars.contains c = true
      · rw [if_pos hsy]
        exact ⟨c, _, rfl, (syntax_facts c (by simpa using hsy)).1⟩
      · rw [if_neg hsy]
        cases ht : translateResolve sc [] c with
        | some m => exact ⟨'<', _, rfl, by decide⟩
        | none =>
          refine ⟨c, S.flatMap (pieceOf sc []), ?_, ?_⟩
          · rfl
          · by_contra hc
            have hc' : c ∈ noteLetters := by
              revert hc; cases hcc : noteLetters.contains c
              · intro hcon; exact absurd rfl hcon
              · intro _; simpa using hcc
            have := noteLetter_resolvable sc c hc'
            rw [ht] at this
            cases this
    obtain ⟨d, tl, heq, hd⟩ := key
    rw [heq]
    show (if noteLetters.contains d = true then trySharp d tl else none) = none
    rw [if_neg (fun hcon => Bool.false_ne_true (hd ▸ hcon))]

/-- Structural unfolding of one scanner step with positive fuel. -/
theorem scanF_succ_cons (sc : ScaleDef) (B : List (Char × Binding)) (fuel : Nat)
    (c : Char) (rest : List Char) :
    notesToKeysScanF sc B (fuel + 1) (c :: rest) =
      (if c = '<' then
        match tryMatch rest with
        | some (matched, name, oct) =>
          (match getMidiFromNoteName name oct with
           | none => '<' :: matched
           | some m =>
             match findKeyForMidi sc B m with
             | some k => [k]
             | none => '<' :: matched) ++
            notesToKeysScanF sc B fuel (rest.drop matched.length)
        | none => '<' :: notesToKeysScanF sc B fuel rest
      else c :: notesToKeysScanF sc B fuel rest) := rfl

/-- The scanner consumes a whole generated token in one step, replacing it by
the key found for its pitch. -/
theorem scanF_token (sc : ScaleDef) (fuel : Nat) (m : Int) (k : Char)
    (rest : List Char) (hk : findKeyForMidi sc [] m = some k) :
    notesToKeysScanF sc [] (fuel + 1) ('<' :: (bodyOf m ++ rest)) =
      k :: notesToKeysScanF sc [] fuel rest := by
  rw [scanF_succ_cons, if_pos rfl]
  simp only [tryMatch_body, getMidiFromNoteName_inv, hk, List.drop_left,
    List.singleton_append]

/-- Scanning a translated comment-free line with enough fuel rewrites it piece
by piece: each source character contributes exactly its round-trip image. -/
theorem scan_flat (sc : ScaleDef) :
    ∀ (S : List Char) (fuel : Nat), (S.flatMap (pieceOf sc [])).length ≤ fuel →
      notesToKeysScanF sc [] fuel (S.flatMap (pieceOf sc [])) =
        S.flatMap (roundChar sc) := by
  intro S
  induction S with
  | nil =>
    intro fuel h
    cases fuel <;> rfl
  | cons c S ih =>
    intro fuel h
    rw [List.flatMap_cons] at h
    rw [List.flatMap_cons, List.flatMap_cons]
    by_cases hsy : syntaxChars.contains c = true
    · have hp : pieceOf sc [] c = [c] := by unfold pieceOf; rw [if_pos hsy]
      have hr : roundChar sc c = [c] := by unfold roundChar; rw [if_pos hsy]
      rw [hp] at h
      rw [List.singleton_append, List.length_cons] at h
      rw [hp, hr, List.singleton_append, List.singleton_append]
      cases fuel with
      | zero => omega
      | succ f =>
        rw [scanF_succ_cons, if_neg (syntax_facts c (by simpa using hsy)).2]
        congr 1
        exact ih f (by omega)
    · cases ht : translateResolve sc [] c with
      | some m =>
        have hp : pieceOf sc [] c = '<' :: bodyOf m := by
          unfold pieceOf; rw [if_neg hsy, ht]; rfl
        obtain ⟨k, hk, -⟩ := findKeyForMidi_resolves (translateResolve_producer ht)
        have hr : roundChar sc c = [k] := by
          unfold roundChar
          rw [if_neg hsy]
          simp only [ht, hk, Option.getD_some]
        rw [hp] at h
        rw [List.cons_append, List.length_cons, List.length_append] at h
        rw [hp, hr, List.cons_append, List.singleton_append]
        cases fuel with
        | zero => omega
        | succ f =>
          rw [scanF_token sc f m k (S.flatMap (pieceOf sc [])) hk]
          congr 1
          exact ih f (by omega)
      | none =>
        have hp : pieceOf sc [] c = [c] := by
          unfold pieceOf; rw [if_neg hsy, ht]
        have hr : roundChar sc c = [c] := by
          unfold roundChar; rw [if_neg hsy, ht]
        rw [hp] at h
        rw [List.singleton_append, List.length_cons] at h
        rw [hp, hr, List.singleton_append, List.singleton_append]
        cases fuel with
        | zero => omega
        | succ f =>
          by_cases hlt : c = '<'
          · subst hlt
            rw [scanF_succ_cons, if_pos rfl]
            simp only [tryMatch_flat_none sc S]
            congr 1
            exact ih f (by omega)
          · rw [scanF_succ_cons, if_neg hlt]
            congr 1
            exact ih f (by omega)

/-- A newline is neither syntax nor resolvable, so it passes through
translation unchanged under every scale. -/
theorem pieceOf_newline (sc : ScaleDef) : pieceOf sc [] '\n' = ['\n'] := rfl

/-- Splitting never yields an empty line list. -/
theorem splitLines_ne_nil : ∀ S : List Char, splitLines S ≠ [] := by
  intro S
  cases S with
  | nil => simp [splitLines]
  | cons c rest =>
    unfold splitLines
    by_cases hc : c = '\n'
    · rw [if_pos hc]; simp
    · rw [if_neg hc]
      cases splitLines rest <;> simp

/-- Joining two or more lines inserts a newline after the first. -/
theorem joinLines_cons_cons (x y : List Char) (ys : List (List Char)) :
    joinLines (x :: y :: ys) = x ++ '\n' :: joinLines (y :: ys) := rfl

/-- A prefix of the first line factors out of a join. -/
theorem joinLines_append_head (a b : List Char) (ls : List (List Char)) :
    joinLines ((a ++ b) :: ls) = a ++ joinLines (b :: ls) := by
  cases ls with
  | nil => rfl
  | cons y ys => rw [joinLines_cons_cons, joinLines_cons_cons, List.append_assoc]

/-- Splitting a text into lines, translating each character of each line, and
joining with newlines is the same as translating each character of the text,
for any per-character translation fixing the newline. -/
theorem joinLines_map_flatMap (g : Char → List Char) (hg : g '\n' = ['\n']) :
    ∀ S : List Char,
      joinLines ((splitLines S).map (fun l => l.flatMap g)) = S.flatMap g := by
  intro S
  induction S with
  | nil => rfl
  | cons c rest ih =>
    rw [List.flatMap_cons]
    by_cases hc : c = '\n'
    · subst hc
      rw [show splitLines ('\n' :: rest) = [] :: splitLines rest from by
        conv_lhs => unfold splitLines
        rw [if_pos rfl]]
      cases hs : splitLines rest with
      | nil => exact absurd hs (splitLines_ne_nil rest)
      | cons l ls =>
        rw [hs] at ih
        simp only [List.map_cons] at ih ⊢
        rw [joinLines_cons_cons, hg, ih]
        rfl
    · cases hs : splitLines rest with
      | nil => exact absurd hs (splitLines_ne_nil rest)
      | cons l ls =>
        rw [show splitLines (c :: rest) = (c :: l) :: ls from by
          conv_lhs => unfold splitLines
          rw [if_neg hc, hs]]
        rw [hs] at ih
        simp only [List.map_cons, List.flatMap_cons] at ih ⊢
        rw [joinLines_append_head, ih]

/-- Claim C3 (amended): for every scale and every comment-free sheet, under
empty custom bindings, the round trip notesToKeys(keysToNotes(S)) rewrites the
sheet character by character: each syntax character and each unresolvable
character is preserved verbatim, and each resolvable character becomes a
single key character that resolves to exactly the same pitch (possibly a
different character, since the reverse lookup prefers unshifted keys). -/
theorem roundTrip_pitch_preserving (sc : ScaleDef) (S : List Char)
    (hcf : ∀ l ∈ splitLines S, isCommentLine l = false) :
    notesToKeysL sc [] (keysToNotesL sc [] S) = S.flatMap (roundChar sc) ∧
    (∀ c, syntaxChars.contains c = true → roundChar sc c = [c]) ∧
    (∀ c, syntaxChars.contains c = false → translateResolve sc [] c = none →
      roundChar sc c = [c]) ∧
    (∀ c m, syntaxChars.contains c = false → translateResolve sc [] c = some m →
      ∃ k, roundChar sc c = [k] ∧ translateResolve sc [] k = some m) := by
  refine ⟨?_, ?_, ?_, ?_⟩
  · have hkn : keysToNotesL sc [] S =
        joinLines ((splitLines S).map (fun l => l.flatMap (pieceOf sc []))) := by
      unfold keysToNotesL
      congr 1
      apply List.map_congr_left
      intro l hl
      rw [hcf l hl, if_neg Bool.false_ne_true]
      rfl
    rw [hkn, joinLines_map_flatMap (pieceOf sc []) (pieceOf_newline sc) S]
    unfold notesToKeysL
    exact scan_flat sc S _ le_rfl
  · intro c hsy
    unfold roundChar
    rw [if_pos hsy]
  · intro c hsy ht
    unfold roundChar
    rw [if_neg (fun hcon => Bool.false_ne_true (hsy ▸ hcon)), ht]
  · intro c m hsy ht
    obtain ⟨k, hk, hres⟩ := findKeyForMidi_resolves (translateResolve_producer ht)
    refine ⟨k, ?_, hres⟩
    unfold roundChar
    rw [if_neg (fun hcon => Bool.false_ne_true (hsy ▸ hcon))]
    simp only [ht, hk, Option.getD_some]

/-- The amended round trip evaluated on the concrete comment-free sheet
"q w [er]", which in fact round-trips to itself. -/
theorem roundTrip_pitch_preserving_witness :
    notesToKeysL cMajor [] (keysToNotesL cMajor [] "q w [er]".toList) =
      "q w [er]".toList.flatMap (roundChar cMajor) :=
  (roundTrip_pitch_preserving cMajor "q w [er]".toList (by decide)).1

/-- The claim as frozen fails in both directions: the shifted symbol after 3
resolves to pitch 17 yet round-trips to the different character 4 (the
unshifted key with the same pitch), and a readable token inside a comment line
is preserved by keysToNotes but rewritten by notesToKeys. -/
theorem roundTrip_not_identity :
    translateResolve cMajor [] '#' = some 17 ∧
    notesToKeysL cMajor [] (keysToNotesL cMajor [] ['#']) = ['4'] ∧
    ('4' : Char) ≠ '#' ∧ translateResolve cMajor [] '4' = some 17 ∧
    keysToNotesL cMajor [] "- <c4>".toList = "- <c4>".toList ∧
    notesToKeysL cMajor [] "- <c4>".toList = "- l".toList := by
  decide
